import Mathlib

/-!
Verification development for the blog-scraper repository.

The repository is a Python content-discovery and extraction pipeline
(src/scraper.py, src/substack_test.py).  This file shallowly embeds the
data model and the operations the specification's claims are about:

* URL utilities: a faithful model of CPython's urllib.parse splitting
  (urlsplit / urlparse / urlunparse) as used by normalize_url, plus
  within_seed_scope.  The public-suffix extraction performed by the
  tldextract library is an external collaborator and is passed in as an
  oracle function.
* HttpClient._request retry logic.
* The extraction chain (fetch_and_extract, extract_substack_fallback) and
  guess_content_type.  HTML parsing (BeautifulSoup), the markdown
  serializer, trafilatura and readability are external collaborators per
  the specification and appear as oracle parameters; all in-repository
  control flow (strategy order, quality floors, paywall short-circuit)
  is modelled directly.
* Sitemap expansion (_expand_single_sitemap / expand_sitemaps), feed entry
  extraction, the on-page crawler (onpage_discovery), and the final
  deduplication of scrape.

Strings are modelled as lists of characters; machine-level concerns do not
arise.  Network fetches are oracle functions from URL to optional body.
-/

namespace BlogScraper

/-- Strings are modelled as lists of characters. -/
abbrev Str := List Char

/-- Conversion from Lean string literals into the model's string type. -/
def lit (s : String) : Str := s.toList

/-! ## Character classes used by urllib.parse -/

/-- ASCII letter, as tested by Python's `c.isascii() and c.isalpha()`. -/
def isAsciiAlphaChar (c : Char) : Bool :=
  decide (65 ≤ c.toNat ∧ c.toNat ≤ 90) || decide (97 ≤ c.toNat ∧ c.toNat ≤ 122)

/-- Membership in urllib.parse's `scheme_chars` (letters, digits, `+`, `-`, `.`). -/
def isSchemeChar (c : Char) : Bool :=
  isAsciiAlphaChar c || decide (48 ≤ c.toNat ∧ c.toNat ≤ 57) ||
    decide (c.toNat = 43 ∨ c.toNat = 45 ∨ c.toNat = 46)

/-- C0 control characters and space, urllib.parse's `_WHATWG_C0_CONTROL_OR_SPACE`. -/
def isC0OrSpace (c : Char) : Bool := decide (c.toNat ≤ 32)

/-- Tab, carriage return and newline: `_UNSAFE_URL_BYTES_TO_REMOVE`. -/
def isUnsafeByte (c : Char) : Bool := decide (c = '\t' ∨ c = '\r' ∨ c = '\n')

/-- The preprocessing urlsplit applies before splitting: left-strip C0
controls and spaces, then delete every tab, CR and LF. -/
def preprocess (u : Str) : Str :=
  (u.dropWhile isC0OrSpace).filter (fun c => !isUnsafeByte c)

/-! ## Splitting primitives -/

/-- Split a string at the first occurrence of `sep`, as Python's
`url.split(sep, 1)` does when `sep` occurs.  Returns `none` when `sep`
does not occur. -/
def splitFirst (sep : Char) : Str → Option (Str × Str)
  | [] => none
  | c :: rest =>
    if c = sep then some ([], rest)
    else
      match splitFirst sep rest with
      | some (a, b) => some (c :: a, b)
      | none => none

/-- Split at the first occurrence of `sep` when present, otherwise return
the whole string with an empty second component; this is the
`if sep in url: url, x = url.split(sep, 1)` idiom. -/
def splitFragQ (sep : Char) (u : Str) : Str × Str :=
  match splitFirst sep u with
  | some (a, b) => (a, b)
  | none => (u, [])

/-- Split a string at the last occurrence of `sep` (Python `rfind`);
the second component contains no `sep`. -/
def splitLast (sep : Char) (u : Str) : Option (Str × Str) :=
  match splitFirst sep u.reverse with
  | some (rb, ra) => some (ra.reverse, rb.reverse)
  | none => none

/-! ## urlsplit / urlparse / urlunparse model -/

/-- The result of urllib.parse.urlparse: six string components. -/
structure UrlParts where
  scheme : Str
  netloc : Str
  path : Str
  params : Str
  query : Str
  fragment : Str
deriving DecidableEq, Repr

/-- Python's scheme-validity test in urlsplit: the text before the first
colon is non-empty, starts with an ASCII letter, and uses only scheme
characters. -/
def schemeOk (s : Str) : Bool :=
  match s with
  | [] => false
  | c :: _ => isAsciiAlphaChar c && s.all isSchemeChar

/-- The scheme-splitting step of urlsplit: on success the scheme is
lower-cased and the remainder follows the colon. -/
def splitScheme (url : Str) : Str × Str :=
  match splitFirst ':' url with
  | none => ([], url)
  | some (pre, post) =>
    if schemeOk pre then (pre.map Char.toLower, post) else ([], url)

/-- Delimiters ending the netloc in `_splitnetloc`. -/
def isNetlocDelim (c : Char) : Bool := decide (c = '/' ∨ c = '?' ∨ c = '#')

/-- Schemes for which urlparse performs params splitting (`uses_params`
of CPython 3.11); note that the empty scheme is included. -/
def usesParamsSchemes : List Str :=
  [[], lit "ftp", lit "hdl", lit "prospero", lit "http", lit "imap",
   lit "https", lit "shttp", lit "rtsp", lit "rtsps", lit "rtspu",
   lit "sip", lit "sips", lit "mms", lit "sftp", lit "tel"]

/-- Whether urlparse splits params for this scheme. -/
def usesParams (s : Str) : Bool := usesParamsSchemes.contains s

/-- Schemes for which urlunsplit re-introduces a `//` authority marker
(`uses_netloc` of CPython 3.11).  The empty string is in the Python list
but the guard `scheme and scheme in uses_netloc` already excludes it. -/
def usesNetlocSchemes : List Str :=
  [[], lit "ftp", lit "http", lit "gopher", lit "nntp", lit "telnet",
   lit "imap", lit "wais", lit "file", lit "mms", lit "https", lit "shttp",
   lit "snews", lit "prospero", lit "rtsp", lit "rtsps", lit "rtspu",
   lit "rsync", lit "svn", lit "svn+ssh", lit "sftp", lit "nfs",
   lit "git", lit "git+ssh", lit "ws", lit "wss"]

/-- Whether urlunsplit adds a netloc marker for this scheme. -/
def usesNetloc (s : Str) : Bool := usesNetlocSchemes.contains s

/-- urllib.parse._splitparams: find the first `;` after the last `/`
(or the first `;` overall when there is no `/`) and split there. -/
def splitParamsRaw (u : Str) : Str × Str :=
  match splitLast '/' u with
  | some (a, b) =>
    (match splitFirst ';' b with
     | some (b1, b2) => (a ++ '/' :: b1, b2)
     | none => (u, []))
  | none =>
    (match splitFirst ';' u with
     | some (x, y) => (x, y)
     | none => (u, []))

/-- The params step of urlparse: split only for schemes in `uses_params`
and only when a `;` occurs in the path. -/
def splitParamsIf (scheme p : Str) : Str × Str :=
  if usesParams scheme && p.contains ';' then splitParamsRaw p else (p, [])

/-- Model of urllib.parse.urlparse (composed of urlsplit and the params
split).  The `ValueError` branches of CPython (unbalanced IPv6 brackets,
`_checknetloc`) are not modelled; the function is total. -/
def urlparseM (url0 : Str) : UrlParts :=
  let url := preprocess url0
  let sp := splitScheme url
  let scheme := sp.1
  let u1 := sp.2
  let np :=
    if u1.take 2 = ['/', '/'] then
      ((u1.drop 2).takeWhile (fun c => !isNetlocDelim c),
       (u1.drop 2).dropWhile (fun c => !isNetlocDelim c))
    else ([], u1)
  let netloc := np.1
  let u2 := np.2
  let fq := splitFragQ '#' u2
  let u3 := fq.1
  let fragment := fq.2
  let qq := splitFragQ '?' u3
  let path0 := qq.1
  let query := qq.2
  let pp := splitParamsIf scheme path0
  ⟨scheme, netloc, pp.1, pp.2, query, fragment⟩

/-- The stages of urlparse after the scheme split, as a function of the
scheme and the post-scheme remainder; urlparseM is its composition with
the scheme split (see urlparseM_eq_parseRest). -/
def parseRest (scheme r1 : Str) : UrlParts :=
  let np :=
    if r1.take 2 = ['/', '/'] then
      ((r1.drop 2).takeWhile (fun c => !isNetlocDelim c),
       (r1.drop 2).dropWhile (fun c => !isNetlocDelim c))
    else ([], r1)
  let fq := splitFragQ '#' np.2
  let qq := splitFragQ '?' fq.1
  let pp := splitParamsIf scheme qq.1
  ⟨scheme, np.1, pp.1, pp.2, qq.2, fq.2⟩

/-- Model of urllib.parse.urlunsplit (CPython 3.11: the authority marker
is re-added when the netloc is non-empty, or when the scheme customarily
uses a netloc and the path does not already begin with `//`). -/
def urlunsplitM (scheme netloc path query fragment : Str) : Str :=
  let u1 :=
    if netloc ≠ [] ∨ (scheme ≠ [] ∧ usesNetloc scheme ∧ path.take 2 ≠ ['/', '/']) then
      '/' :: '/' :: netloc ++
        (if path ≠ [] ∧ path.take 1 ≠ ['/'] then '/' :: path else path)
    else path
  let u2 := if scheme ≠ [] then scheme ++ ':' :: u1 else u1
  let u3 := if query ≠ [] then u2 ++ '?' :: query else u2
  if fragment ≠ [] then u3 ++ '#' :: fragment else u3

/-- Model of urllib.parse.urlunparse: re-attach params, then unsplit. -/
def urlunparseM (P : UrlParts) : Str :=
  urlunsplitM P.scheme P.netloc
    (if P.params ≠ [] then P.path ++ ';' :: P.params else P.path)
    P.query P.fragment

/-- Re-attachment of params to a path, as urlunparse does. -/
def recombineParams (p pr : Str) : Str :=
  if pr ≠ [] then p ++ ';' :: pr else p

/-- normalize_url from src/scraper.py: parse, clear the fragment,
re-serialize. -/
def normalize_url (u : Str) : Str :=
  let parsed := urlparseM u
  urlunparseM { parsed with fragment := [] }

/-- A scheme as produced by a successful scheme split of urlsplit:
non-empty, ASCII letter first, scheme characters throughout, and fixed
under lower-casing. -/
def SchemeGood (s : Str) : Prop :=
  s ≠ [] ∧ (∀ c ∈ s, isSchemeChar c = true) ∧
    (∃ c rest, s = c :: rest ∧ isAsciiAlphaChar c = true) ∧
    s.map Char.toLower = s

/-- What it means for urlsplit to find no scheme in `w`: no decomposition
at a first colon has a scheme-shaped prefix. -/
def NoSchemeText (w : Str) : Prop :=
  ∀ a b, w = a ++ ':' :: b → ':' ∉ a → schemeOk a = false

/-! ## Scope utilities (src/scraper.py lines 67-82)

The registered-domain extraction is performed by the external tldextract
library; it enters the model as an oracle function `regDomain`. -/

/-- same_registered_domain from src/scraper.py, over a registered-domain
oracle standing for tldextract. -/
def same_registered_domain (regDomain : Str → Str) (a b : Str) : Bool :=
  decide (regDomain a = regDomain b) && decide (regDomain a ≠ [])

/-- Python str.rstrip("/"): remove all trailing slashes. -/
def rstripSlash (p : Str) : Str :=
  (p.reverse.dropWhile (fun c => decide (c = '/'))).reverse

/-- within_seed_scope from src/scraper.py: same registered domain, and if
the seed has a non-root path (trailing slashes removed), the candidate's
path must start with that prefix. -/
def within_seed_scope (regDomain : Str → Str) (candidate seed : Str) : Bool :=
  if !same_registered_domain regDomain candidate seed then false
  else
    let seedPath := rstripSlash (urlparseM seed).path
    if seedPath ≠ [] then seedPath.isPrefixOf (urlparseM candidate).path
    else true

/-! ## Generic string helpers for Python semantics -/

/-- Python's substring containment `needle in hay`. -/
def containsSub (needle : Str) : Str → Bool
  | [] => needle.isEmpty
  | c :: rest => needle.isPrefixOf (c :: rest) || containsSub needle rest

/-- Python str.lower restricted to ASCII (all uses in the claims involve
ASCII keywords). -/
def lowerStr (s : Str) : Str := s.map Char.toLower

/-- Python whitespace characters recognised by str.strip(). -/
def isPySpace (c : Char) : Bool :=
  decide (c = ' ' ∨ c = '\t' ∨ c = '\n' ∨ c = '\r' ∨ c = '\x0b' ∨ c = '\x0c')

/-- Python str.strip(): drop whitespace from both ends. -/
def pyStrip (s : Str) : Str :=
  ((s.dropWhile isPySpace).reverse.dropWhile isPySpace).reverse

/-- Python `a or b` on optional strings: `a` unless it is None or empty. -/
def pyOr (a b : Option Str) : Option Str :=
  match a with
  | some s => if s = [] then b else some s
  | none => b

/-! ## Content-type classification (src/scraper.py lines 322-336) -/

/-- guess_content_type from src/scraper.py, verbatim rule order. -/
def guess_content_type (url html title : Str) : Str :=
  let u := lowerStr url
  let t := lowerStr title
  let h := lowerStr html
  if containsSub (lit "linkedin.com") u then lit "linkedin_post"
  else if containsSub (lit "reddit.com") u then lit "reddit_comment"
  else if containsSub (lit "podcast") u || containsSub (lit "podcast") t ||
      containsSub (lit "<audio") h then lit "podcast_transcript"
  else if containsSub (lit "transcript") u || containsSub (lit "transcript") t then
    lit "call_transcript"
  else if containsSub (lit "/book") u || containsSub (lit "chapter") t then lit "book"
  else lit "blog"

/-! ## Extraction chain (src/scraper.py lines 339-426)

trafilatura, readability and the markdown serializer are external
libraries; they are oracle parameters producing an optional
(title, markdown) pair.  The Substack fallback's in-repository control
flow (paywall short-circuit, container selection order, the 40-character
floor) is modelled directly, with BeautifulSoup's services (paywall text
search, container selection with the lazy-image rewrite already applied,
first-h1 text) and markdownify as oracles. -/

/-- An extraction strategy result: optional title and markdown content. -/
abbrev StratResult := Option (Option Str × Str)

/-- The oracle bundle for the parser/serializer collaborators used by
extract_substack_fallback and fetch_and_extract. -/
structure SoupOracles where
  /-- soup.find(string contains "paid subscribers"), as a Bool. -/
  paywall : Str → Bool
  /-- The first matching content container of the prioritized selector
  list, serialized (after lazy-image rewriting), if any. -/
  selNode : Str → Option Str
  /-- get_text(strip true) of the first h1 element, if one exists. -/
  h1Text : Str → Option Str
  /-- markdownify with ATX heading style, on a serialized node. -/
  mdOf : Str → Str
  /-- BeautifulSoup(html).title: none when the title tag is absent (or
  falsy), otherwise its .string (which itself may be None). -/
  soupTitle : Str → Option (Option Str)

/-- extract_substack_fallback from src/scraper.py: paywall short-circuit,
container selection, title from first h1 when its text is non-empty, and
the 40-character trimmed-length floor. -/
def extract_substack_fallback (so : SoupOracles) (html : Str) : StratResult :=
  if so.paywall html then none
  else
    match so.selNode html with
    | none => none
    | some node =>
      let title : Option Str :=
        match so.h1Text html with
        | some t => if t ≠ [] then some t else none
        | none => none
      let markdown := so.mdOf node
      if markdown ≠ [] ∧ 40 ≤ (pyStrip markdown).length then some (title, markdown)
      else none

/-- An extracted item as assembled by fetch_and_extract (the JSON object
with title, content, content_type, source_url). -/
structure Item where
  title : Option Str
  content : Str
  content_type : Str
  source_url : Str
deriving DecidableEq, Repr

/-- The Substack-detection condition of fetch_and_extract. -/
def substackCond (url html : Str) : Bool :=
  containsSub (lit "substack.com") url ||
    (containsSub (lit "name=\"generator\"") html && containsSub (lit "Substack") html)

/-- fetch_and_extract from src/scraper.py: fetch, then trafilatura, then
readability, then (under the Substack condition) the platform fallback;
reject when the trimmed markdown is shorter than 80 characters; classify
and assemble the item.  The title field reproduces the source expression
`title or BeautifulSoup(html).title.string if BeautifulSoup(html).title
else url`, whose conditional binds as
`(title or soup.title.string) if soup.title else url`. -/
def fetch_and_extract (fetchR : Str → Option Str)
    (traf readab : Str → Str → StratResult) (so : SoupOracles)
    (url : Str) : Option Item :=
  match fetchR url with
  | none => none
  | some html =>
    if html = [] then none
    else
      let res0 := traf url html
      let res1 := match res0 with
        | some r => some r
        | none => readab url html
      let res2 := match res1 with
        | some r => some r
        | none =>
          if substackCond url html then extract_substack_fallback so html
          else none
      match res2 with
      | none => none
      | some (title, markdown) =>
        if markdown = [] ∨ (pyStrip markdown).length < 80 then none
        else
          some { title :=
                   match so.soupTitle html with
                   | none => some url
                   | some ts => pyOr title ts,
                 content := pyStrip markdown,
                 content_type := guess_content_type url html (title.getD []),
                 source_url := url }

/-- fetch_post from src/substack_test.py: same chain but the Substack
fallback is tried unconditionally, no 80-character floor is applied, the
content type is hard-coded, and the title expression is parenthesized as
`title or (soup.title.string if soup.title else url)`. -/
def fetch_post (fetchT : Str → Str) (traf readab : Str → Str → StratResult)
    (so : SoupOracles) (url : Str) : Option Item :=
  let html := fetchT url
  if html = [] then none
  else
    let res0 := traf url html
    let res1 := match res0 with
      | some r => some r
      | none => readab url html
    let res2 := match res1 with
      | some r => some r
      | none => extract_substack_fallback so html
    match res2 with
    | none => none
    | some (title, content) =>
      some { title :=
               pyOr title
                 (match so.soupTitle html with
                  | none => some url
                  | some ts => ts),
             content := pyStrip content,
             content_type := lit "blog",
             source_url := url }

/-! ## Transport client retry loop (src/scraper.py lines 102-115)

Each attempt of `HttpClient._request` either raises (timeout, connection
error — caught by the bare except) or produces a status code; the network
is an oracle from attempt number to outcome.  Delays passed to
asyncio.sleep are rational numbers of seconds. -/

/-- One network attempt's outcome: an exception, or a response status. -/
inductive FetchOutcome where
  | exn : FetchOutcome
  | status : Nat → FetchOutcome
deriving DecidableEq, Repr

/-- The retry loop of HttpClient._request, from a given attempt index
with a given number of loop iterations remaining.  Returns the delivered
status (None for failure) and the list of backoff delays slept. -/
def requestFrom (oracle : Nat → FetchOutcome) : Nat → Nat → Option Nat × List ℚ
  | _, 0 => (none, [])
  | attempt, fuel + 1 =>
    match oracle attempt with
    | .exn =>
      let r := requestFrom oracle (attempt + 1) fuel
      (r.1, (1 / 2 : ℚ) * 2 ^ attempt :: r.2)
    | .status code =>
      if 500 ≤ code then
        let r := requestFrom oracle (attempt + 1) fuel
        (r.1, (1 / 2 : ℚ) * 2 ^ attempt :: r.2)
      else if code < 400 then (some code, [])
      else (none, [])

/-- HttpClient._request: `for attempt in range(3)`. -/
def httpRequest (oracle : Nat → FetchOutcome) : Option Nat × List ℚ :=
  requestFrom oracle 0 3

/-! ## Sitemap expansion (src/scraper.py lines 158-187)

The network and the XML `<loc>` parse are oracles: `fetchLoc u` is the
list of `<loc>` values of sitemap `u` when the fetch returns a non-empty
body, and `none` when `fetch_text` yields nothing (parse_xml_for_loc on
any text is total).  The traversal state records visited, accumulated
URLs, and — for the claims about re-fetching and depth — a log of every
fetch performed together with the visited set at that moment and the
recursion depth. -/

/-- Traversal state of _expand_single_sitemap / expand_sitemaps. -/
structure SmState where
  visited : List Str
  acc : List Str
  fetchLog : List (Str × Nat × List Str)
deriving Repr

/-- Is a `<loc>` value treated as a nested sitemap index
(`nu.endswith(".xml") or "/sitemap" in urlparse(nu).path`)? -/
def isNestedSitemap (nu : Str) : Bool :=
  (lit ".xml").isSuffixOf nu || containsSub (lit "/sitemap") (urlparseM nu).path

mutual

/-- _expand_single_sitemap.  `gas` is structural fuel; the top-level call
passes 5, and since every recursive call increases `depth` by 1 and the
`depth > 3` guard returns first, the fuel can never be exhausted before
the depth guard fires (when gas = 0 under the invariant gas + depth = 5
we have depth = 5 > 3, so returning the state unchanged coincides with
the Python behaviour). -/
def expandSingle (fetchLoc : Str → Option (List Str)) (regDomain : Str → Str)
    (seed : Str) : Nat → Nat → Str → SmState → SmState
  | 0, _, _, st => st
  | gas + 1, depth, su, st =>
    if su ∈ st.visited ∨ 3 < depth then st
    else
      let st1 : SmState :=
        { visited := su :: st.visited,
          acc := st.acc,
          fetchLog := (su, depth, st.visited) :: st.fetchLog }
      match fetchLoc su with
      | none => st1
      | some locs => expandLocs fetchLoc regDomain seed gas depth locs st1

/-- The `for u in parse_xml_for_loc(text)` loop body of
_expand_single_sitemap. -/
def expandLocs (fetchLoc : Str → Option (List Str)) (regDomain : Str → Str)
    (seed : Str) (gas depth : Nat) : List Str → SmState → SmState
  | [], st => st
  | u :: rest, st =>
    let nu := normalize_url u
    if isNestedSitemap nu then
      expandLocs fetchLoc regDomain seed gas depth rest
        (expandSingle fetchLoc regDomain seed gas (depth + 1) nu st)
    else if within_seed_scope regDomain nu seed then
      expandLocs fetchLoc regDomain seed gas depth rest
        { st with acc := nu :: st.acc }
    else expandLocs fetchLoc regDomain seed gas depth rest st

end

/-- expand_sitemaps: expand each sitemap URL in turn, sharing the visited
set and the accumulator. -/
def expand_sitemaps (fetchLoc : Str → Option (List Str)) (regDomain : Str → Str)
    (sitemapUrls : List Str) (seed : Str) : SmState :=
  sitemapUrls.foldl
    (fun st sm => expandSingle fetchLoc regDomain seed 5 0 sm st)
    ⟨[], [], []⟩

/-- The guard invariant of the sitemap traversal: every logged fetch was
of an unvisited URL at depth at most 3, the logged fetch URLs are
pairwise distinct, and every logged URL ends up visited. -/
def SmGuardInv (st : SmState) : Prop :=
  (∀ e ∈ st.fetchLog, e.2.1 ≤ 3 ∧ e.1 ∉ e.2.2)
  ∧ (st.fetchLog.map Prod.fst).Nodup
  ∧ (∀ e ∈ st.fetchLog, e.1 ∈ st.visited)

/-! ## Feed entry extraction (src/scraper.py lines 238-250) -/

/-- extract_feed_entries: feedparser is an oracle returning each entry's
optional link; a link is used when truthy (non-None, non-empty),
normalized, and kept only in scope. -/
def extract_feed_entries (entries : Str → List (Option Str)) (regDomain : Str → Str)
    (feedUrl seed : Str) : List Str :=
  (entries feedUrl).foldl
    (fun acc link =>
      match link with
      | none => acc
      | some l =>
        if l = [] then acc
        else
          let nu := normalize_url l
          if within_seed_scope regDomain nu seed then nu :: acc else acc)
    []

/-! ## On-page crawler (src/scraper.py lines 278-315)

BeautifulSoup link extraction (including the rel=next pagination targets)
is the oracle `links`, returning candidate links in iteration order; the
per-link article check (`client.get(link)` followed by
looks_like_article_html) is the oracle `artOk`.  The visited and
collected sets are modelled as duplicate-free lists. -/

/-- BLOG_HINT_PATHS from src/scraper.py. -/
def BLOG_HINT_PATHS : List Str :=
  [lit "/blog", lit "/blogs", lit "/articles", lit "/article",
   lit "/posts", lit "/post", lit "/stories", lit "/learn",
   lit "/guides", lit "/guide", lit "/topics", lit "/resources"]

/-- `any(h in path for h in BLOG_HINT_PATHS)` on the link's parsed path. -/
def hasBlogHint (link : Str) : Bool :=
  BLOG_HINT_PATHS.any (fun h => containsSub h (urlparseM link).path)

/-- The `for link in links` body of onpage_discovery: filter by scope and
freshness, enqueue, collect (unconditionally for blog-hint paths,
otherwise only when the article heuristic accepts), and break out as soon
as `max_pages` items are collected.  Returns the updated frontier and
collected list. -/
def procLinks (regDomain : Str → Str) (artOk : Str → Bool) (seed : Str)
    (mp : Nat) (seen : List Str) :
    List Str → List Str → List Str → List Str × List Str
  | [], toVisit, collected => (toVisit, collected)
  | l :: ls, toVisit, collected =>
    if !within_seed_scope regDomain l seed then
      procLinks regDomain artOk seed mp seen ls toVisit collected
    else if l ∈ seen ∨ l ∈ collected then
      procLinks regDomain artOk seed mp seen ls toVisit collected
    else
      let toVisit1 := toVisit ++ [l]
      let collected1 :=
        if hasBlogHint l then l :: collected
        else if artOk l then l :: collected
        else collected
      if mp ≤ collected1.length then (toVisit1, collected1)
      else procLinks regDomain artOk seed mp seen ls toVisit1 collected1

/-- The while loop of onpage_discovery.  The loop guard
`len(seen) < max_pages * 3` is realised through the structural fuel:
the top-level call passes `max_pages * 3` and every iteration that grows
`seen` by one element consumes one unit, so fuel exhaustion coincides
exactly with the guard failing.  Skipped frontier entries (already seen)
change no state, so they are discharged in a batch by dropWhile, exactly
as the `continue` does.  Returns (seen, collected). -/
def crawlLoop (regDomain : Str → Str) (fetch : Str → Option Str)
    (links : Str → Str → List Str) (artOk : Str → Bool)
    (seed : Str) (mp : Nat) :
    Nat → List Str → List Str → List Str → List Str × List Str
  | 0, _, seen, collected => (seen, collected)
  | fuel + 1, toVisit, seen, collected =>
    if ¬ collected.length < mp then (seen, collected)
    else
        match toVisit.dropWhile (fun u => decide (u ∈ seen)) with
        | [] => (seen, collected)
        | url :: rest =>
          let seen1 := url :: seen
          match fetch url with
          | none => crawlLoop regDomain fetch links artOk seed mp fuel rest seen1 collected
          | some html =>
            if html = [] then
              crawlLoop regDomain fetch links artOk seed mp fuel rest seen1 collected
            else
              let pc := procLinks regDomain artOk seed mp seen1 (links url html) rest collected
              crawlLoop regDomain fetch links artOk seed mp fuel pc.1 seen1 pc.2

/-- onpage_discovery: crawl from the seed with an empty visited set and
an empty collected set.  The first component is the visited set and the
second the collected set (the Python function's return value). -/
def onpage_discovery (regDomain : Str → Str) (fetch : Str → Option Str)
    (links : Str → Str → List Str) (artOk : Str → Bool)
    (seed : Str) (mp : Nat) : List Str × List Str :=
  crawlLoop regDomain fetch links artOk seed mp (mp * 3) [seed] [] []

/-! ## Final deduplication (src/scraper.py lines 470-529)

The workers append one optional item per candidate; completion order is
nondeterministic, so the claims below are stated of the dedup pass over
an arbitrary results list, and of the deterministic composition used for
the item-count bound. -/

/-- The `for it in results` dedup loop of scrape: keep an item only when
its source_url has not been seen. -/
def dedupAux : List Str → List Item → List Item
  | _, [] => []
  | seen, it :: rest =>
    if it.source_url ∈ seen then dedupAux seen rest
    else it :: dedupAux (it.source_url :: seen) rest

/-- Deduplicate results by source_url, first occurrence kept. -/
def dedupBySource (results : List Item) : List Item := dedupAux [] results

/-- The item-assembly core of scrape: truncate the candidate list to
max_pages, run the extraction per candidate (the oracle `extract` stands
for fetch_and_extract with its oracles fixed), and deduplicate. -/
def scrapeItems (extract : Str → Option Item) (candidates : List Str)
    (mp : Nat) : List Item :=
  dedupBySource ((candidates.take mp).filterMap extract)

/-! # Theorems -/

/-! ## C7: content-type classification -/

/-- C7: guess_content_type evaluates its rules in the stated precedence:
a social-platform domain in the URL yields linkedin_post/reddit_comment;
otherwise "podcast" in URL or title or an audio tag in the HTML yields
podcast_transcript; otherwise "transcript" in URL or title yields
call_transcript; otherwise "/book" in the URL or "chapter" in the title
yields book; otherwise blog.  Totality and determinism hold by
construction: guess_content_type is a total Lean function of exactly
(url, html, title). -/
theorem guess_content_type_precedence (url html title : Str) :
    (containsSub (lit "linkedin.com") (lowerStr url) = true →
      guess_content_type url html title = lit "linkedin_post")
    ∧ (containsSub (lit "linkedin.com") (lowerStr url) = false →
        containsSub (lit "reddit.com") (lowerStr url) = true →
      guess_content_type url html title = lit "reddit_comment")
    ∧ (containsSub (lit "linkedin.com") (lowerStr url) = false →
        containsSub (lit "reddit.com") (lowerStr url) = false →
        (containsSub (lit "podcast") (lowerStr url) ||
         containsSub (lit "podcast") (lowerStr title) ||
         containsSub (lit "<audio") (lowerStr html)) = true →
      guess_content_type url html title = lit "podcast_transcript")
    ∧ (containsSub (lit "linkedin.com") (lowerStr url) = false →
        containsSub (lit "reddit.com") (lowerStr url) = false →
        (containsSub (lit "podcast") (lowerStr url) ||
         containsSub (lit "podcast") (lowerStr title) ||
         containsSub (lit "<audio") (lowerStr html)) = false →
        (containsSub (lit "transcript") (lowerStr url) ||
         containsSub (lit "transcript") (lowerStr title)) = true →
      guess_content_type url html title = lit "call_transcript")
    ∧ (containsSub (lit "linkedin.com") (lowerStr url) = false →
        containsSub (lit "reddit.com") (lowerStr url) = false →
        (containsSub (lit "podcast") (lowerStr url) ||
         containsSub (lit "podcast") (lowerStr title) ||
         containsSub (lit "<audio") (lowerStr html)) = false →
        (containsSub (lit "transcript") (lowerStr url) ||
         containsSub (lit "transcript") (lowerStr title)) = false →
        (containsSub (lit "/book") (lowerStr url) ||
         containsSub (lit "chapter") (lowerStr title)) = true →
      guess_content_type url html title = lit "book")
    ∧ (containsSub (lit "linkedin.com") (lowerStr url) = false →
        containsSub (lit "reddit.com") (lowerStr url) = false →
        (containsSub (lit "podcast") (lowerStr url) ||
         containsSub (lit "podcast") (lowerStr title) ||
         containsSub (lit "<audio") (lowerStr html)) = false →
        (containsSub (lit "transcript") (lowerStr url) ||
         containsSub (lit "transcript") (lowerStr title)) = false →
        (containsSub (lit "/book") (lowerStr url) ||
         containsSub (lit "chapter") (lowerStr title)) = false →
      guess_content_type url html title = lit "blog") := by
  refine ⟨?_, ?_, ?_, ?_, ?_, ?_⟩ <;>
    intros <;> simp_all [guess_content_type]

/-- Witness for C7: a URL containing linkedin.com classifies as a
LinkedIn post. -/
theorem guess_content_type_precedence_witness :
    guess_content_type (lit "https://www.linkedin.com/posts/xyz") (lit "<p>hi</p>")
      (lit "A post") = lit "linkedin_post" :=
  (guess_content_type_precedence _ _ _).1 (by decide)

/-! ## C6: transport retry policy -/

/-- C6: HttpClient._request consults at most the first three attempt
outcomes (two retries beyond the first attempt); a 4xx response at any
live attempt immediately yields no response with no further delay; a
sub-400 response on the first attempt is returned at once; and when all
three attempts fail transiently (exception or 5xx) the result is no
response after backoff delays 0.5, 1, 2 seconds.  The model returns an
Option rather than raising: the bare except in the source converts every
request exception into a retry or a final None, so no exception reaches
the caller. -/
theorem httpRequest_retry_policy (oracle : Nat → FetchOutcome) :
    (∀ oracle2 : Nat → FetchOutcome, (∀ i, i < 3 → oracle i = oracle2 i) →
      httpRequest oracle = httpRequest oracle2)
    ∧ (∀ attempt fuel c, oracle attempt = .status c → 400 ≤ c → c < 500 →
        requestFrom oracle attempt (fuel + 1) = (none, []))
    ∧ (∀ c, oracle 0 = .status c → c < 400 → httpRequest oracle = (some c, []))
    ∧ ((∀ i, i < 3 → oracle i = .exn ∨ ∃ c, oracle i = .status c ∧ 500 ≤ c) →
        httpRequest oracle = (none, [(1 : ℚ)/2, 1, 2])) := by
  refine ⟨?_, ?_, ?_, ?_⟩
  · intro oracle2 h
    have h0 := h 0 (by omega)
    have h1 := h 1 (by omega)
    have h2 := h 2 (by omega)
    simp only [httpRequest, requestFrom, h0, h1, h2]
  · intro attempt fuel c hc h400 h500
    simp only [requestFrom, hc]
    rw [if_neg (by omega), if_neg (by omega)]
  · intro c hc h400
    simp only [httpRequest, requestFrom, hc]
    rw [if_neg (by omega), if_pos h400]
  · intro h
    have step : ∀ i, i < 3 →
        requestFrom oracle i (3 - i) =
          ((requestFrom oracle (i + 1) (2 - i)).1,
           (1 / 2 : ℚ) * 2 ^ i :: (requestFrom oracle (i + 1) (2 - i)).2) := by
      intro i hi
      rcases h i hi with hexn | ⟨c, hc, h5⟩
      · have h3 : 3 - i = (2 - i) + 1 := by omega
        rw [h3]
        simp only [requestFrom, hexn]
      · have h3 : 3 - i = (2 - i) + 1 := by omega
        rw [h3]
        simp only [requestFrom, hc]
        rw [if_pos h5]
    have e0 := step 0 (by omega)
    have e1 := step 1 (by omega)
    have e2 := step 2 (by omega)
    simp only [Nat.sub_self] at e2
    have ebase : requestFrom oracle 3 0 = (none, []) := rfl
    simp only [httpRequest]
    have h30 : (3 : Nat) - 0 = 3 := rfl
    rw [show requestFrom oracle 0 3 = requestFrom oracle 0 (3 - 0) from rfl, e0]
    simp only [Nat.sub_zero] at e1 ⊢
    norm_num at e0 e1 e2 ⊢
    rw [e1, e2, ebase]
    norm_num

/-- Witness for C6: an oracle answering 503 on every attempt exhausts the
three attempts and produces the doubling backoff delays. -/
theorem httpRequest_retry_policy_witness :
    httpRequest (fun _ => .status 503) = (none, [(1 : ℚ)/2, 1, 2]) :=
  (httpRequest_retry_policy _).2.2.2 (fun i _ => Or.inr ⟨503, rfl, by omega⟩)

/-! ## C3: deduplication of the final corpus -/

/-- The dedup loop never lengthens the results list. -/
theorem dedupAux_length_le (seen : List Str) (rs : List Item) :
    (dedupAux seen rs).length ≤ rs.length := by
  induction rs generalizing seen with
  | nil => simp [dedupAux]
  | cons it rest ih =>
    simp only [dedupAux]
    split
    · exact Nat.le_trans (ih seen) (Nat.le_succ _)
    · simpa using ih (it.source_url :: seen)

/-- Every kept item's source_url was unseen at its point, and the kept
item is the first occurrence of that source_url in the input list. -/
theorem dedupAux_mem (seen : List Str) (rs : List Item) (it : Item)
    (h : it ∈ dedupAux seen rs) :
    it.source_url ∉ seen ∧
      rs.find? (fun r => decide (r.source_url = it.source_url)) = some it := by
  induction rs generalizing seen with
  | nil => simp [dedupAux] at h
  | cons hd rest ih =>
    simp only [dedupAux] at h
    split at h
    · rename_i hseen
      obtain ⟨h1, h2⟩ := ih seen h
      refine ⟨h1, ?_⟩
      have hne : hd.source_url ≠ it.source_url := fun he => h1 (he ▸ hseen)
      simp only [List.find?]
      rw [decide_eq_false hne]
      exact h2
    · rename_i hseen
      rcases List.mem_cons.mp h with he | hm
      · subst he
        refine ⟨hseen, ?_⟩
        simp [List.find?]
      · obtain ⟨h1, h2⟩ := ih (hd.source_url :: seen) hm
        have hne : hd.source_url ≠ it.source_url := by
          intro he
          exact h1 (by simp [he])
        refine ⟨fun hc => h1 (List.mem_cons_of_mem _ hc), ?_⟩
        simp only [List.find?]
        rw [decide_eq_false hne]
        exact h2

/-- The deduplicated list has pairwise-distinct source_urls. -/
theorem dedupAux_nodup (seen : List Str) (rs : List Item) :
    ((dedupAux seen rs).map Item.source_url).Nodup := by
  induction rs generalizing seen with
  | nil => simp [dedupAux]
  | cons hd rest ih =>
    simp only [dedupAux]
    split
    · exact ih seen
    · simp only [List.map_cons, List.nodup_cons]
      refine ⟨?_, ih (hd.source_url :: seen)⟩
      intro hmem
      obtain ⟨x, hx, hxe⟩ := List.mem_map.mp hmem
      have := (dedupAux_mem _ _ _ hx).1
      exact this (by simp [hxe])

/-- C3: for every candidate list (duplicates allowed) and every
max_pages > 0, the scrape result contains no two items with the same
source_url, keeps the first occurrence of each source_url among the
collected results, and has at most max_pages items. -/
theorem scrape_dedup_unique (extract : Str → Option Item)
    (candidates : List Str) (mp : Nat) (hmp : 0 < mp) :
    ((scrapeItems extract candidates mp).map Item.source_url).Nodup
    ∧ (scrapeItems extract candidates mp).length ≤ mp
    ∧ ∀ it ∈ scrapeItems extract candidates mp,
        ((candidates.take mp).filterMap extract).find?
          (fun r => decide (r.source_url = it.source_url)) = some it := by
  refine ⟨dedupAux_nodup _ _, ?_, fun it h => (dedupAux_mem _ _ _ h).2⟩
  calc (scrapeItems extract candidates mp).length
      ≤ ((candidates.take mp).filterMap extract).length := dedupAux_length_le _ _
    _ ≤ (candidates.take mp).length := List.length_filterMap_le _ _
    _ ≤ mp := by simp [List.length_take_le]

/-- Witness for C3: two candidates extracting to the same source_url are
collapsed to the single first occurrence. -/
theorem scrape_dedup_unique_witness :
    ((scrapeItems
        (fun _ => some ⟨none, lit "c", lit "blog", lit "https://e.co/a"⟩)
        [lit "https://e.co/a", lit "https://e.co/a?x"] 10).map
          Item.source_url).Nodup
    ∧ (scrapeItems
        (fun _ => some ⟨none, lit "c", lit "blog", lit "https://e.co/a"⟩)
        [lit "https://e.co/a", lit "https://e.co/a?x"] 10).length ≤ 10 := by
  have h := scrape_dedup_unique
    (fun _ => some ⟨none, lit "c", lit "blog", lit "https://e.co/a"⟩)
    [lit "https://e.co/a", lit "https://e.co/a?x"] 10 (by omega)
  exact ⟨h.1, h.2.1⟩

/-! ## C5: on-page crawl bounds -/

/-- The link-processing loop keeps the collected list within max_pages
whenever it starts strictly below it: every addition is re-checked
against the cap before the loop continues. -/
theorem procLinks_col_le (regDomain : Str → Str) (artOk : Str → Bool)
    (seed : Str) (mp : Nat) (seen : List Str) :
    ∀ ls tv col, col.length < mp →
      ((procLinks regDomain artOk seed mp seen ls tv col).2).length ≤ mp := by
  intro ls
  induction ls with
  | nil => intro tv col h; simpa [procLinks] using Nat.le_of_lt h
  | cons l rest ih =>
    intro tv col h
    simp only [procLinks]
    split
    · exact ih tv col h
    · split
      · exact ih tv col h
      · generalize hcol1 :
          (if hasBlogHint l then l :: col
           else if artOk l = true then l :: col else col) = col1
        have hlen : col1.length ≤ col.length + 1 := by
          rw [← hcol1]
          split
          · simp
          · split <;> simp
        split
        · have hcb : col1.length ≤ mp := by omega
          simpa using hcb
        · rename_i hlt2
          exact ih (tv ++ [l]) col1 (by omega)

/-- The crawl loop keeps the collected list within max_pages. -/
theorem crawlLoop_col_le (regDomain : Str → Str) (fetch : Str → Option Str)
    (links : Str → Str → List Str) (artOk : Str → Bool)
    (seed : Str) (mp : Nat) :
    ∀ fuel tv seen col, col.length ≤ mp →
      ((crawlLoop regDomain fetch links artOk seed mp fuel tv seen col).2).length ≤ mp := by
  intro fuel
  induction fuel with
  | zero => intro tv seen col h; simpa [crawlLoop] using h
  | succ fuel ih =>
    intro tv seen col h
    simp only [crawlLoop]
    split
    · simpa using h
    · rename_i hlt
      split
      · simpa using h
      · rename_i url rest heq
        split
        · exact ih _ _ _ h
        · split
          · exact ih _ _ _ h
          · exact ih _ _ _
              (procLinks_col_le regDomain artOk seed mp _ _ _ _ (by omega))

/-- Each crawl iteration grows the visited list by at most one element,
so the result is bounded by the fuel plus the entry size. -/
theorem crawlLoop_seen_le (regDomain : Str → Str) (fetch : Str → Option Str)
    (links : Str → Str → List Str) (artOk : Str → Bool)
    (seed : Str) (mp : Nat) :
    ∀ fuel tv seen col,
      ((crawlLoop regDomain fetch links artOk seed mp fuel tv seen col).1).length ≤
        seen.length + fuel := by
  intro fuel
  induction fuel with
  | zero => intro tv seen col; simp [crawlLoop]
  | succ fuel ih =>
    intro tv seen col
    simp only [crawlLoop]
    split
    · simp
    · split
      · simp
      · rename_i url rest heq
        split
        · have := ih rest (url :: seen) col
          simp at this
          omega
        · split
          · have := ih rest (url :: seen) col
            simp at this
            omega
          · have := ih (procLinks regDomain artOk seed mp (url :: seen)
              (links url ((fetch url).getD [])) rest col).1 (url :: seen)
              (procLinks regDomain artOk seed mp (url :: seen)
                (links url ((fetch url).getD [])) rest col).2
            rename_i html hhtml hne
            have h2 := ih (procLinks regDomain artOk seed mp (url :: seen)
              (links url html) rest col).1 (url :: seen)
              (procLinks regDomain artOk seed mp (url :: seen)
                (links url html) rest col).2
            simp at h2
            omega

/-- C5: for every link graph (every oracle), every seed and every
max_pages > 0, the on-page crawl returns at most max_pages collected
URLs and visits at most 3 * max_pages URLs.  Termination is inherent:
the loop is defined by structural recursion on fuel max_pages * 3, which
decreases exactly when the Python loop guard `len(seen) < max_pages * 3`
admits another state-changing iteration. -/
theorem onpage_discovery_bounds (regDomain : Str → Str) (fetch : Str → Option Str)
    (links : Str → Str → List Str) (artOk : Str → Bool)
    (seed : Str) (mp : Nat) (hmp : 0 < mp) :
    ((onpage_discovery regDomain fetch links artOk seed mp).2).length ≤ mp
    ∧ ((onpage_discovery regDomain fetch links artOk seed mp).1).length ≤ mp * 3 := by
  constructor
  · exact crawlLoop_col_le regDomain fetch links artOk seed mp _ _ _ _ (by simp)
  · simpa using crawlLoop_seen_le regDomain fetch links artOk seed mp (mp * 3) [seed] [] []

/-- Witness for C5: a two-page cyclic site crawled with max_pages 1
collects at most one URL and visits at most three. -/
theorem onpage_discovery_bounds_witness :
    ((onpage_discovery (fun _ => lit "d") (fun _ => some (lit "<a>"))
        (fun _ _ => [lit "http://d.co/blog/a", lit "http://d.co/blog/b"])
        (fun _ => true) (lit "http://d.co") 1).2).length ≤ 1
    ∧ ((onpage_discovery (fun _ => lit "d") (fun _ => some (lit "<a>"))
        (fun _ _ => [lit "http://d.co/blog/a", lit "http://d.co/blog/b"])
        (fun _ => true) (lit "http://d.co") 1).1).length ≤ 1 * 3 :=
  onpage_discovery_bounds _ _ _ _ _ _ (by omega)

/-! ## Shared invariants of the sitemap expansion -/

section SitemapInvariants

variable (fetchLoc : Str → Option (List Str)) (regDomain : Str → Str) (seed : Str)

/-- Accumulator elements are in scope: preserved jointly by the expansion
of one sitemap and by the loc-list loop, by induction on the fuel. -/
theorem expand_scope_aux : ∀ gas : Nat,
    (∀ depth su st,
      (∀ u ∈ st.acc, within_seed_scope regDomain u seed = true) →
      ∀ u ∈ (expandSingle fetchLoc regDomain seed gas depth su st).acc,
        within_seed_scope regDomain u seed = true)
    ∧ (∀ depth locs st,
      (∀ u ∈ st.acc, within_seed_scope regDomain u seed = true) →
      ∀ u ∈ (expandLocs fetchLoc regDomain seed gas depth locs st).acc,
        within_seed_scope regDomain u seed = true) := by
  intro gas
  induction gas with
  | zero =>
    constructor
    · intro depth su st h
      simpa [expandSingle] using h
    · intro depth locs
      induction locs with
      | nil => intro st h; simpa [expandLocs] using h
      | cons u rest ih =>
        intro st h
        simp only [expandLocs]
        split
        · exact ih _ (by simpa [expandSingle] using h)
        · split
          · rename_i hscope
            refine ih _ ?_
            intro v hv
            rcases List.mem_cons.mp hv with he | hm
            · subst he; exact hscope
            · exact h v hm
          · exact ih _ h
  | succ gas ihg =>
    have hA : ∀ depth su st,
        (∀ u ∈ st.acc, within_seed_scope regDomain u seed = true) →
        ∀ u ∈ (expandSingle fetchLoc regDomain seed (gas + 1) depth su st).acc,
          within_seed_scope regDomain u seed = true := by
      intro depth su st h
      simp only [expandSingle]
      split
      · exact h
      · split
        · exact h
        · exact ihg.2 _ _ _ h
    refine ⟨hA, ?_⟩
    intro depth locs
    induction locs with
    | nil => intro st h; simpa [expandLocs] using h
    | cons u rest ih =>
      intro st h
      simp only [expandLocs]
      split
      · exact ih _ (hA _ _ _ h)
      · split
        · rename_i hscope
          refine ih _ ?_
          intro v hv
          rcases List.mem_cons.mp hv with he | hm
          · subst he; exact hscope
          · exact h v hm
        · exact ih _ h

/-- One guarded step preserves the invariant: the fetched URL is fresh
and within depth, so the log entry is sound and its URL new. -/
theorem smGuardInv_step (st : SmState) (su : Str) (depth : Nat)
    (hfresh : ¬(su ∈ st.visited ∨ 3 < depth)) (h : SmGuardInv st) :
    SmGuardInv ⟨su :: st.visited, st.acc, (su, depth, st.visited) :: st.fetchLog⟩ := by
  obtain ⟨h1, h2, h3⟩ := h
  push_neg at hfresh
  refine ⟨?_, ?_, ?_⟩
  · intro e he
    rcases List.mem_cons.mp he with he1 | he2
    · subst he1
      exact ⟨by simp only []; omega, by simpa using hfresh.1⟩
    · exact h1 e he2
  · simp only [List.map_cons, List.nodup_cons]
    refine ⟨?_, h2⟩
    intro hmem
    obtain ⟨e, he, hee⟩ := List.mem_map.mp hmem
    exact hfresh.1 (hee ▸ h3 e he)
  · intro e he
    rcases List.mem_cons.mp he with he1 | he2
    · subst he1; simp
    · exact List.mem_cons_of_mem _ (h3 e he2)

/-- The guard invariant and visited-monotonicity hold through the mutual
recursion, by induction on the fuel. -/
theorem expand_guard_aux : ∀ gas : Nat,
    (∀ depth su st, SmGuardInv st →
      SmGuardInv (expandSingle fetchLoc regDomain seed gas depth su st)
      ∧ st.visited ⊆ (expandSingle fetchLoc regDomain seed gas depth su st).visited)
    ∧ (∀ depth locs st, SmGuardInv st →
      SmGuardInv (expandLocs fetchLoc regDomain seed gas depth locs st)
      ∧ st.visited ⊆ (expandLocs fetchLoc regDomain seed gas depth locs st).visited) := by
  have hmono : ∀ st st2 : SmState, SmGuardInv st → st.visited ⊆ st2.visited →
      (∀ e ∈ st.fetchLog, e ∈ st2.fetchLog) → True := fun _ _ _ _ _ => trivial
  clear hmono
  intro gas
  induction gas with
  | zero =>
    constructor
    · intro depth su st h
      exact ⟨by simpa [expandSingle] using h, by simp [expandSingle]⟩
    · intro depth locs
      induction locs with
      | nil =>
        intro st h
        exact ⟨by simpa [expandLocs] using h, by simp [expandLocs]⟩
      | cons u rest ih =>
        intro st h
        simp only [expandLocs]
        split
        · have h0 : expandSingle fetchLoc regDomain seed 0 (depth + 1)
              (normalize_url u) st = st := by simp [expandSingle]
          rw [h0]
          exact ih st h
        · split
          · have := ih { st with acc := normalize_url u :: st.acc } h
            exact this
          · exact ih st h
  | succ gas ihg =>
    have hA : ∀ depth su st, SmGuardInv st →
        SmGuardInv (expandSingle fetchLoc regDomain seed (gas + 1) depth su st)
        ∧ st.visited ⊆ (expandSingle fetchLoc regDomain seed (gas + 1) depth su st).visited := by
      intro depth su st h
      simp only [expandSingle]
      split
      · exact ⟨h, by simp⟩
      · rename_i hfresh
        have h1 := smGuardInv_step st su depth hfresh h
        split
        · exact ⟨h1, fun x hx => List.mem_cons_of_mem _ hx⟩
        · rename_i locs hlocs
          have h2 := ihg.2 depth locs _ h1
          exact ⟨h2.1, fun x hx =>
            h2.2 (List.mem_cons_of_mem _ hx)⟩
    refine ⟨hA, ?_⟩
    intro depth locs
    induction locs with
    | nil =>
      intro st h
      exact ⟨by simpa [expandLocs] using h, by simp [expandLocs]⟩
    | cons u rest ih =>
      intro st h
      simp only [expandLocs]
      split
      · have h1 := hA (depth + 1) (normalize_url u) st h
        have h2 := ih _ h1.1
        exact ⟨h2.1, fun x hx => h2.2 (h1.2 hx)⟩
      · split
        · exact ih { st with acc := normalize_url u :: st.acc } h
        · exact ih st h

end SitemapInvariants

/-! ## C2: every discovered URL is in scope -/

/-- The feed-entry fold only accumulates in-scope URLs. -/
theorem extract_feed_entries_scope_aux (regDomain : Str → Str) (seed : Str) :
    ∀ (ls : List (Option Str)) (acc : List Str),
      (∀ u ∈ acc, within_seed_scope regDomain u seed = true) →
      ∀ u ∈ ls.foldl
          (fun acc link =>
            match link with
            | none => acc
            | some l =>
              if l = [] then acc
              else
                let nu := normalize_url l
                if within_seed_scope regDomain nu seed then nu :: acc else acc)
          acc,
        within_seed_scope regDomain u seed = true := by
  intro ls
  induction ls with
  | nil => intro acc h; simpa using h
  | cons link rest ih =>
    intro acc h
    simp only [List.foldl_cons]
    cases link with
    | none => exact ih acc h
    | some l =>
      by_cases hl : l = []
      · simp only [hl, if_pos rfl]
        exact ih acc h
      · simp only [if_neg hl]
        split
        · rename_i hscope
          refine ih _ ?_
          intro v hv
          rcases List.mem_cons.mp hv with he | hm
          · subst he; exact hscope
          · exact h v hm
        · exact ih acc h

/-- The link-processing loop only collects in-scope links. -/
theorem procLinks_scope (regDomain : Str → Str) (artOk : Str → Bool)
    (seed : Str) (mp : Nat) (seen : List Str) :
    ∀ ls tv col, (∀ u ∈ col, within_seed_scope regDomain u seed = true) →
      ∀ u ∈ (procLinks regDomain artOk seed mp seen ls tv col).2,
        within_seed_scope regDomain u seed = true := by
  intro ls
  induction ls with
  | nil => intro tv col h; simpa [procLinks] using h
  | cons l rest ih =>
    intro tv col h
    simp only [procLinks]
    split
    · exact ih tv col h
    · rename_i hscope
      have hs : within_seed_scope regDomain l seed = true := by
        simpa using hscope
      split
      · exact ih tv col h
      · generalize hcol1eq :
          (if hasBlogHint l then l :: col
           else if artOk l = true then l :: col else col) = col1
        have hcol1 : ∀ u ∈ col1, within_seed_scope regDomain u seed = true := by
          rw [← hcol1eq]
          split
          · intro v hv
            rcases List.mem_cons.mp hv with he | hm
            · subst he; exact hs
            · exact h v hm
          · split
            · intro v hv
              rcases List.mem_cons.mp hv with he | hm
              · subst he; exact hs
              · exact h v hm
            · exact h
        split
        · simpa using hcol1
        · exact ih (tv ++ [l]) col1 hcol1

/-- The crawl loop only collects in-scope links. -/
theorem crawlLoop_scope (regDomain : Str → Str) (fetch : Str → Option Str)
    (links : Str → Str → List Str) (artOk : Str → Bool)
    (seed : Str) (mp : Nat) :
    ∀ fuel tv seen col, (∀ u ∈ col, within_seed_scope regDomain u seed = true) →
      ∀ u ∈ (crawlLoop regDomain fetch links artOk seed mp fuel tv seen col).2,
        within_seed_scope regDomain u seed = true := by
  intro fuel
  induction fuel with
  | zero => intro tv seen col h; simpa [crawlLoop] using h
  | succ fuel ih =>
    intro tv seen col h
    simp only [crawlLoop]
    split
    · simpa using h
    · split
      · simpa using h
      · split
        · exact ih _ _ _ h
        · split
          · exact ih _ _ _ h
          · exact ih _ _ _ (procLinks_scope regDomain artOk seed mp _ _ _ _ h)

/-- C2: every URL returned by sitemap expansion, feed-entry extraction,
or the on-page crawler satisfies within_seed_scope for the seed, for
every oracle instantiation. -/
theorem discovery_within_scope (fetchLoc : Str → Option (List Str))
    (regDomain : Str → Str) (entries : Str → List (Option Str))
    (fetch : Str → Option Str) (links : Str → Str → List Str)
    (artOk : Str → Bool) (sitemapUrls : List Str) (feedUrl seed : Str)
    (mp : Nat) :
    (∀ u ∈ (expand_sitemaps fetchLoc regDomain sitemapUrls seed).acc,
        within_seed_scope regDomain u seed = true)
    ∧ (∀ u ∈ extract_feed_entries entries regDomain feedUrl seed,
        within_seed_scope regDomain u seed = true)
    ∧ (∀ u ∈ (onpage_discovery regDomain fetch links artOk seed mp).2,
        within_seed_scope regDomain u seed = true) := by
  refine ⟨?_, ?_, ?_⟩
  · have hfold : ∀ (sms : List Str) (st : SmState),
        (∀ u ∈ st.acc, within_seed_scope regDomain u seed = true) →
        ∀ u ∈ (sms.foldl
            (fun st sm => expandSingle fetchLoc regDomain seed 5 0 sm st) st).acc,
          within_seed_scope regDomain u seed = true := by
      intro sms
      induction sms with
      | nil => intro st h; simpa using h
      | cons sm rest ih =>
        intro st h
        simp only [List.foldl_cons]
        exact ih _ ((expand_scope_aux fetchLoc regDomain seed 5).1 _ _ _ h)
    intro u hu
    exact hfold sitemapUrls ⟨[], [], []⟩ (by simp) u hu
  · intro u hu
    exact extract_feed_entries_scope_aux regDomain seed _ [] (by simp) u hu
  · intro u hu
    exact crawlLoop_scope regDomain fetch links artOk seed mp _ _ _ _ (by simp) u hu

/-- Witness for C2: with a one-entry feed in scope, the extracted entry
is indeed within the seed scope. -/
theorem discovery_within_scope_witness :
    within_seed_scope (fun _ => lit "d.co") (normalize_url (lit "http://d.co/a"))
      (lit "http://d.co") = true := by
  have h := (discovery_within_scope (fun _ => none) (fun _ => lit "d.co")
    (fun _ => [some (lit "http://d.co/a")]) (fun _ => none) (fun _ _ => [])
    (fun _ => false) [] (lit "http://d.co/feed") (lit "http://d.co") 1).2.1
  exact h (normalize_url (lit "http://d.co/a")) (by decide)

/-! ## C4: sitemap expansion guards -/

/-- C4: the sitemap expansion never fetches a sitemap URL already in its
visited set (the logged fetch URLs are pairwise distinct and each was
unvisited at fetch time), never fetches beyond depth 3, and at depths
past the cap it returns the state unchanged — nested sitemaps there are
silently dropped, not an error.  Termination holds by construction: the
recursion is structural in the fuel, which the depth guard always cuts
first at the top-level fuel of expand_sitemaps. -/
theorem expand_sitemaps_guards (fetchLoc : Str → Option (List Str))
    (regDomain : Str → Str) (sitemapUrls : List Str) (seed : Str) :
    (∀ e ∈ (expand_sitemaps fetchLoc regDomain sitemapUrls seed).fetchLog,
        e.2.1 ≤ 3 ∧ e.1 ∉ e.2.2)
    ∧ ((expand_sitemaps fetchLoc regDomain sitemapUrls seed).fetchLog.map
        Prod.fst).Nodup
    ∧ (∀ gas depth su st, 3 < depth →
        expandSingle fetchLoc regDomain seed gas depth su st = st) := by
  have hfold : ∀ (sms : List Str) (st : SmState), SmGuardInv st →
      SmGuardInv (sms.foldl
        (fun st sm => expandSingle fetchLoc regDomain seed 5 0 sm st) st) := by
    intro sms
    induction sms with
    | nil => intro st h; simpa using h
    | cons sm rest ih =>
      intro st h
      simp only [List.foldl_cons]
      exact ih _ ((expand_guard_aux fetchLoc regDomain seed 5).1 _ _ _ h).1
  have hres : SmGuardInv (expand_sitemaps fetchLoc regDomain sitemapUrls seed) :=
    hfold sitemapUrls ⟨[], [], []⟩ (by refine ⟨?_, ?_, ?_⟩ <;> simp)
  refine ⟨hres.1, hres.2.1, ?_⟩
  intro gas depth su st hd
  cases gas with
  | zero => simp [expandSingle]
  | succ gas =>
    simp only [expandSingle]
    rw [if_pos (Or.inr hd)]

/-- Witness for C4: a self-referential sitemap (cyclic nesting) is fetched
once and once only. -/
theorem expand_sitemaps_guards_witness :
    (∀ e ∈ (expand_sitemaps
        (fun _ => some [lit "http://d.co/sitemap.xml"]) (fun _ => lit "d.co")
        [lit "http://d.co/sitemap.xml"] (lit "http://d.co")).fetchLog,
      e.2.1 ≤ 3 ∧ e.1 ∉ e.2.2)
    ∧ ((expand_sitemaps
        (fun _ => some [lit "http://d.co/sitemap.xml"]) (fun _ => lit "d.co")
        [lit "http://d.co/sitemap.xml"] (lit "http://d.co")).fetchLog.map
          Prod.fst).Nodup := by
  have h := expand_sitemaps_guards
    (fun _ => some [lit "http://d.co/sitemap.xml"]) (fun _ => lit "d.co")
    [lit "http://d.co/sitemap.xml"] (lit "http://d.co")
  exact ⟨h.1, h.2.1⟩

/-! ## C1: extraction-chain order and quality floors (corrected) -/

/-- Counterexample to C1 as stated: with both generic strategies failing
and the Substack condition holding, the platform fallback succeeds with
trimmed content of exactly 40 characters — yet fetch_and_extract returns
no result, because the 80-character floor is applied to every path.  So a
platform-fallback result with trimmed length at least 40 does not always
yield an ExtractionResult. -/
theorem fetch_and_extract_floor_counterexample :
    extract_substack_fallback
        ⟨fun _ => false, fun _ => some (lit "node"), fun _ => none,
         fun _ => lit "aaaaaaaaaaaaaaaaaaaaaaaaaaaaaaaaaaaaaaaa", fun _ => none⟩
        (lit "<html>")
      = some (none, lit "aaaaaaaaaaaaaaaaaaaaaaaaaaaaaaaaaaaaaaaa")
    ∧ (pyStrip (lit "aaaaaaaaaaaaaaaaaaaaaaaaaaaaaaaaaaaaaaaa")).length = 40
    ∧ fetch_and_extract (fun _ => some (lit "<html>")) (fun _ _ => none)
        (fun _ _ => none)
        ⟨fun _ => false, fun _ => some (lit "node"), fun _ => none,
         fun _ => lit "aaaaaaaaaaaaaaaaaaaaaaaaaaaaaaaaaaaaaaaa", fun _ => none⟩
        (lit "http://a.substack.com/p/x") = none := by
  refine ⟨by decide, by decide, by decide⟩

/-- C1 amended: the chain tries trafilatura, then readability, then — only
under the Substack condition — the platform fallback, in that order; the
fallback's internal floor is 40 trimmed characters, but fetch_and_extract
additionally applies the 80-character floor to the winning strategy's
output on every path, so an item is produced exactly when the winning
strategy's trimmed content reaches 80 characters, and every produced item
has trimmed content of at least 80 characters. -/
theorem fetch_and_extract_chain (fetchR : Str → Option Str)
    (traf readab : Str → Str → StratResult) (so : SoupOracles) (url html : Str) :
    (∀ it, fetch_and_extract fetchR traf readab so url = some it →
        80 ≤ it.content.length)
    ∧ (fetchR url = some html → html ≠ [] →
        ∀ t m, traf url html = some (t, m) → 80 ≤ (pyStrip m).length →
          (fetch_and_extract fetchR traf readab so url).isSome = true)
    ∧ (fetchR url = some html → html ≠ [] → traf url html = none →
        ∀ t m, readab url html = some (t, m) → 80 ≤ (pyStrip m).length →
          (fetch_and_extract fetchR traf readab so url).isSome = true)
    ∧ (fetchR url = some html → html ≠ [] → traf url html = none →
        readab url html = none → substackCond url html = true →
        ∀ t m, extract_substack_fallback so html = some (t, m) →
          80 ≤ (pyStrip m).length →
          (fetch_and_extract fetchR traf readab so url).isSome = true)
    ∧ (fetchR url = some html → html ≠ [] → traf url html = none →
        readab url html = none → substackCond url html = false →
        fetch_and_extract fetchR traf readab so url = none)
    ∧ (fetchR url = some html → html ≠ [] →
        ∀ t m, traf url html = some (t, m) → (pyStrip m).length < 80 →
          fetch_and_extract fetchR traf readab so url = none) := by
  have hguard : ∀ m : Str, 80 ≤ (pyStrip m).length →
      ¬(m = [] ∨ (pyStrip m).length < 80) := by
    rintro m h80 (rfl | hlt)
    · simp [pyStrip] at h80
    · omega
  refine ⟨?_, ?_, ?_, ?_, ?_, ?_⟩
  · intro it h
    simp only [fetch_and_extract] at h
    split at h
    · exact absurd h (by simp)
    · split at h
      · exact absurd h (by simp)
      · split at h
        · exact absurd h (by simp)
        · rename_i t m heq
          split at h
          · exact absurd h (by simp)
          · rename_i hok
            push_neg at hok
            obtain ⟨-, h80⟩ := hok
            cases h
            simpa using h80
  · intro hf hh t m ht h80
    simp only [fetch_and_extract, hf, ht]
    rw [if_neg hh, if_neg (hguard m h80)]
    simp
  · intro hf hh htn t m hr h80
    simp only [fetch_and_extract, hf, htn, hr]
    rw [if_neg hh, if_neg (hguard m h80)]
    simp
  · intro hf hh htn hrn hsc t m hfb h80
    simp only [fetch_and_extract, hf, htn, hrn, hsc, if_true, hfb]
    rw [if_neg hh, if_neg (hguard m h80)]
    simp
  · intro hf hh htn hrn hsc
    simp only [fetch_and_extract, hf, htn, hrn, hsc]
    rw [if_neg hh]
    simp
  · intro hf hh t m ht hlt
    simp only [fetch_and_extract, hf, ht]
    rw [if_neg hh, if_pos (by omega : m = [] ∨ (pyStrip m).length < 80)]

/-- Witness for the amended C1: a trafilatura result of 80 trimmed
characters yields an item. -/
theorem fetch_and_extract_chain_witness :
    (fetch_and_extract (fun _ => some (lit "<p>x</p>"))
      (fun _ _ => some (none,
        lit "aaaaaaaaaaaaaaaaaaaaaaaaaaaaaaaaaaaaaaaaaaaaaaaaaaaaaaaaaaaaaaaaaaaaaaaaaaaaaaaa"))
      (fun _ _ => none)
      ⟨fun _ => false, fun _ => none, fun _ => none, fun _ => [], fun _ => none⟩
      (lit "http://e.co/a")).isSome = true := by
  have h := (fetch_and_extract_chain (fun _ => some (lit "<p>x</p>"))
    (fun _ _ => some (none,
      lit "aaaaaaaaaaaaaaaaaaaaaaaaaaaaaaaaaaaaaaaaaaaaaaaaaaaaaaaaaaaaaaaaaaaaaaaaaaaaaaaa"))
    (fun _ _ => none)
    ⟨fun _ => false, fun _ => none, fun _ => none, fun _ => [], fun _ => none⟩
    (lit "http://e.co/a") (lit "<p>x</p>")).2.1
  exact h rfl (by decide) none _ rfl (by decide)

/-! ## C10: title-field grouping -/

/-- C10: when the fetched HTML has no (truthy) title element,
fetch_and_extract emits the page URL as the title even when the winning
strategy returned a non-empty title — a consequence of the conditional
expression `title or soup.title.string if soup.title else url` grouping
as `(title or soup.title.string) if soup.title else url`; the feed-first
entry point's fetch_post parenthesizes the expression differently and
keeps the strategy title. -/
theorem title_fallback_grouping (fetchR : Str → Option Str) (fetchT : Str → Str)
    (traf readab : Str → Str → StratResult) (so : SoupOracles) (url : Str) :
    (∀ html it, fetchR url = some html → so.soupTitle html = none →
        fetch_and_extract fetchR traf readab so url = some it →
        it.title = some url)
    ∧ (∀ t m it, so.soupTitle (fetchT url) = none →
        traf url (fetchT url) = some (some t, m) → t ≠ [] →
        fetch_post fetchT traf readab so url = some it →
        it.title = some t) := by
  constructor
  · intro html it hf hst h
    simp only [fetch_and_extract, hf] at h
    split at h
    · exact absurd h (by simp)
    · split at h
      · exact absurd h (by simp)
      · rename_i t m heq
        split at h
        · exact absurd h (by simp)
        · rw [hst] at h
          cases h
          rfl
  · intro t m it hst ht htne h
    simp only [fetch_post, ht] at h
    split at h
    · exact absurd h (by simp)
    · cases h
      simp [pyOr, htne]

/-- Witness for C10: with no title tag and a strategy title "T", the
scraper-path item titles the page by its URL while the feed-first path
keeps "T". -/
theorem title_fallback_grouping_witness :
    (∀ it, fetch_and_extract (fun _ => some (lit "<p>x</p>"))
        (fun _ _ => some (some (lit "T"),
          lit "aaaaaaaaaaaaaaaaaaaaaaaaaaaaaaaaaaaaaaaaaaaaaaaaaaaaaaaaaaaaaaaaaaaaaaaaaaaaaaaa"))
        (fun _ _ => none)
        ⟨fun _ => false, fun _ => none, fun _ => none, fun _ => [], fun _ => none⟩
        (lit "http://e.co/a") = some it → it.title = some (lit "http://e.co/a"))
    ∧ (∀ it, fetch_post (fun _ => lit "<p>x</p>")
        (fun _ _ => some (some (lit "T"),
          lit "aaaaaaaaaaaaaaaaaaaaaaaaaaaaaaaaaaaaaaaaaaaaaaaaaaaaaaaaaaaaaaaaaaaaaaaaaaaaaaaa"))
        (fun _ _ => none)
        ⟨fun _ => false, fun _ => none, fun _ => none, fun _ => [], fun _ => none⟩
        (lit "http://e.co/a") = some it → it.title = some (lit "T")) := by
  have h := title_fallback_grouping (fun _ => some (lit "<p>x</p>"))
    (fun _ => lit "<p>x</p>")
    (fun _ _ => some (some (lit "T"),
      lit "aaaaaaaaaaaaaaaaaaaaaaaaaaaaaaaaaaaaaaaaaaaaaaaaaaaaaaaaaaaaaaaaaaaaaaaaaaaaaaaa"))
    (fun _ _ => none)
    ⟨fun _ => false, fun _ => none, fun _ => none, fun _ => [], fun _ => none⟩
    (lit "http://e.co/a")
  exact ⟨fun it hit => h.1 (lit "<p>x</p>") it rfl rfl hit,
         fun it hit => h.2 (lit "T") _ it rfl rfl (by decide) hit⟩

/-! ## C9: case of scheme and host under normalization (code-bug evidence) -/

/-- C9 evidence: normalize_url lower-cases the scheme but preserves the
netloc's letter case, so two URLs differing only in host case normalize
to distinct strings; the candidate-set union and the source_url dedup
compare exact strings, so they keep both — the dedup pass below returns
two items.  This contradicts the source's own comment ("normalize
scheme/host casing", src/scraper.py line 62) and the spec sentence the
claim quotes; only the scheme's case is insignificant. -/
theorem normalize_host_case_preserved :
    normalize_url (lit "http://EXAMPLE.com/a") = lit "http://EXAMPLE.com/a"
    ∧ normalize_url (lit "http://example.com/a") = lit "http://example.com/a"
    ∧ normalize_url (lit "http://EXAMPLE.com/a") ≠
        normalize_url (lit "http://example.com/a")
    ∧ normalize_url (lit "HTTP://example.com/a") = lit "http://example.com/a"
    ∧ dedupBySource
        [⟨none, lit "c", lit "blog", normalize_url (lit "http://EXAMPLE.com/a")⟩,
         ⟨none, lit "c", lit "blog", normalize_url (lit "http://example.com/a")⟩] =
      [⟨none, lit "c", lit "blog", lit "http://EXAMPLE.com/a"⟩,
       ⟨none, lit "c", lit "blog", lit "http://example.com/a"⟩] := by
  refine ⟨by decide, by decide, by decide, by decide, by decide⟩

/-! ## C8 infrastructure: character lemmas -/

/-- toLower adds 32 to an upper-case ASCII letter's code point. -/
theorem toLower_toNat_of_upper (c : Char) (h1 : 65 ≤ c.toNat) (h2 : c.toNat ≤ 90) :
    (Char.toLower c).toNat = c.toNat + 32 := by
  simp only [Char.toLower]
  rw [if_pos ⟨h1, h2⟩]
  have hv : (c.toNat + 32).isValidChar := by
    left
    omega
  rw [Char.ofNat, dif_pos hv]
  simp [Char.ofNatAux, Char.toNat, UInt32.toNat, UInt32.ofNatCore]

/-- toLower fixes every character that is not an upper-case ASCII letter. -/
theorem toLower_of_not_upper (c : Char) (h : ¬(65 ≤ c.toNat ∧ c.toNat ≤ 90)) :
    Char.toLower c = c := by
  simp only [Char.toLower]
  rw [if_neg h]

/-- Scheme characters in terms of code points. -/
theorem isSchemeChar_iff (c : Char) : isSchemeChar c = true ↔
    (65 ≤ c.toNat ∧ c.toNat ≤ 90) ∨ (97 ≤ c.toNat ∧ c.toNat ≤ 122) ∨
    (48 ≤ c.toNat ∧ c.toNat ≤ 57) ∨ c.toNat = 43 ∨ c.toNat = 45 ∨ c.toNat = 46 := by
  simp [isSchemeChar, isAsciiAlphaChar]
  tauto

/-- ASCII letters in terms of code points. -/
theorem isAsciiAlphaChar_iff (c : Char) : isAsciiAlphaChar c = true ↔
    (65 ≤ c.toNat ∧ c.toNat ≤ 90) ∨ (97 ≤ c.toNat ∧ c.toNat ≤ 122) := by
  simp [isAsciiAlphaChar]

/-- toLower preserves ASCII letters and lands outside the upper-case range. -/
theorem isAsciiAlphaChar_toLower (c : Char) (h : isAsciiAlphaChar c = true) :
    isAsciiAlphaChar (Char.toLower c) = true ∧ 97 ≤ (Char.toLower c).toNat := by
  rcases (isAsciiAlphaChar_iff c).mp h with hu | hl
  · have := toLower_toNat_of_upper c hu.1 hu.2
    refine ⟨(isAsciiAlphaChar_iff _).mpr (Or.inr (by omega)), by omega⟩
  · rw [toLower_of_not_upper c (by omega)]
    exact ⟨h, hl.1⟩

/-- toLower preserves scheme characters. -/
theorem isSchemeChar_toLower (c : Char) (h : isSchemeChar c = true) :
    isSchemeChar (Char.toLower c) = true := by
  rcases (isSchemeChar_iff c).mp h with hu | hrest
  · have := toLower_toNat_of_upper c hu.1 hu.2
    exact (isSchemeChar_iff _).mpr (Or.inr (Or.inl (by omega)))
  · rcases hrest with h1 | h1 | h1 | h1 | h1 <;>
    · rw [toLower_of_not_upper c (by omega)]
      exact h

/-- Lower-casing is idempotent on characters. -/
theorem toLower_toLower (c : Char) :
    Char.toLower (Char.toLower c) = Char.toLower c := by
  by_cases h : 65 ≤ c.toNat ∧ c.toNat ≤ 90
  · have := toLower_toNat_of_upper c h.1 h.2
    exact toLower_of_not_upper _ (by omega)
  · rw [toLower_of_not_upper c h, toLower_of_not_upper c h]

/-- Scheme characters are never unsafe bytes (tab, CR, LF). -/
theorem isSchemeChar_not_unsafe (c : Char) (h : isSchemeChar c = true) :
    isUnsafeByte c = false := by
  have hn := (isSchemeChar_iff c).mp h
  simp only [isUnsafeByte, decide_eq_false_iff_not]
  rintro (rfl | rfl | rfl) <;> simp_all

/-! ## C8 infrastructure: split characterizations -/

/-- splitFirst succeeds exactly on the decomposition at the first
occurrence of the separator. -/
theorem splitFirst_eq_some_iff (sep : Char) :
    ∀ l a b, splitFirst sep l = some (a, b) ↔ l = a ++ sep :: b ∧ sep ∉ a := by
  intro l
  induction l with
  | nil =>
    intro a b
    constructor
    · intro h; cases h
    · rintro ⟨hl, -⟩
      exact absurd hl (by simp)
  | cons c rest ih =>
    intro a b
    simp only [splitFirst]
    by_cases hc : c = sep
    · subst hc
      simp only [if_pos rfl]
      constructor
      · rintro h
        cases h
        simp
      · rintro ⟨hl, hm⟩
        cases a with
        | nil =>
          simp only [List.nil_append, List.cons.injEq] at hl
          simp [hl.2]
        | cons a0 arest =>
          simp only [List.cons_append, List.cons.injEq] at hl
          exact absurd (by simp [hl.1]) hm
    · rw [if_neg hc]
      constructor
      · intro h
        match hsf : splitFirst sep rest with
        | some (a2, b2) =>
          rw [hsf] at h
          cases h
          obtain ⟨hl, hm⟩ := (ih a2 b).mp hsf
          constructor
          · rw [hl]; rfl
          · simp only [List.mem_cons]
            rintro (h1 | h1)
            · exact hc h1.symm
            · exact hm h1
        | none =>
          rw [hsf] at h
          cases h
      · rintro ⟨hl, hm⟩
        cases a with
        | nil =>
          simp only [List.nil_append, List.cons.injEq] at hl
          exact absurd hl.1 hc
        | cons a0 arest =>
          simp only [List.cons_append, List.cons.injEq] at hl
          obtain ⟨he, hrest⟩ := hl
          subst he
          have := (ih arest b).mpr ⟨hrest, fun hmm => hm (List.mem_cons_of_mem _ hmm)⟩
          rw [this]

/-- splitFirst fails exactly when the separator is absent. -/
theorem splitFirst_eq_none_iff (sep : Char) :
    ∀ l, splitFirst sep l = none ↔ sep ∉ l := by
  intro l
  induction l with
  | nil => simp [splitFirst]
  | cons c rest ih =>
    simp only [splitFirst]
    by_cases hc : c = sep
    · subst hc
      simp
    · rw [if_neg hc]
      match hsf : splitFirst sep rest with
      | some (a2, b2) =>
        simp only [List.mem_cons]
        constructor
        · intro h; cases h
        · intro h
          exfalso
          apply h
          right
          obtain ⟨hl, -⟩ := (splitFirst_eq_some_iff sep rest a2 b2).mp hsf
          rw [hl]
          simp
      | none =>
        simp only [List.mem_cons]
        constructor
        · intro h
          rintro (h1 | h1)
          · exact hc h1.symm
          · exact ih.mp hsf h1
        · intro h; trivial

/-- splitLast succeeds exactly on the decomposition at the last
occurrence of the separator. -/
theorem splitLast_eq_some_iff (sep : Char) (l a b : Str) :
    splitLast sep l = some (a, b) ↔ l = a ++ sep :: b ∧ sep ∉ b := by
  simp only [splitLast]
  constructor
  · intro h
    match hsf : splitFirst sep l.reverse with
    | some (rb, ra) =>
      rw [hsf] at h
      cases h
      obtain ⟨hl, hm⟩ := (splitFirst_eq_some_iff sep _ _ _).mp hsf
      constructor
      · have := congrArg List.reverse hl
        simpa [List.reverse_append] using this
      · simpa using hm
    | none =>
      rw [hsf] at h
      cases h
  · rintro ⟨hl, hm⟩
    have hrev : l.reverse = b.reverse ++ sep :: a.reverse := by
      rw [hl]
      simp [List.reverse_append]
    have := (splitFirst_eq_some_iff sep l.reverse b.reverse a.reverse).mpr
      ⟨hrev, by simpa using hm⟩
    rw [this]
    simp

/-- splitLast fails exactly when the separator is absent. -/
theorem splitLast_eq_none_iff (sep : Char) (l : Str) :
    splitLast sep l = none ↔ sep ∉ l := by
  simp only [splitLast]
  match hsf : splitFirst sep l.reverse with
  | some (rb, ra) =>
    simp only []
    constructor
    · intro h; cases h
    · intro h
      obtain ⟨hl, -⟩ := (splitFirst_eq_some_iff sep _ _ _).mp hsf
      exfalso
      apply h
      have hs : sep ∈ l.reverse := by rw [hl]; simp
      simpa using hs
  | none =>
    simp only []
    constructor
    · intro h
      have hnone := (splitFirst_eq_none_iff sep l.reverse).mp hsf
      intro hmem
      exact hnone (by simpa using hmem)
    · intro h; trivial

/-- splitFragQ with the separator absent. -/
theorem splitFragQ_of_not_mem (sep : Char) (u : Str) (h : sep ∉ u) :
    splitFragQ sep u = (u, []) := by
  simp [splitFragQ, (splitFirst_eq_none_iff sep u).mpr h]

/-- splitFragQ at an explicit first occurrence. -/
theorem splitFragQ_append (sep : Char) (x y : Str) (h : sep ∉ x) :
    splitFragQ sep (x ++ sep :: y) = (x, y) := by
  simp [splitFragQ, (splitFirst_eq_some_iff sep (x ++ sep :: y) x y).mpr ⟨rfl, h⟩]

/-- takeWhile/dropWhile on an all-true block followed by a stopping
suffix. -/
theorem takeWhile_dropWhile_all_append (pred : Char → Bool) (n rest : Str)
    (hn : ∀ c ∈ n, pred c = true)
    (hrest : rest = [] ∨ ∃ c t, rest = c :: t ∧ pred c = false) :
    (n ++ rest).takeWhile pred = n ∧ (n ++ rest).dropWhile pred = rest := by
  induction n with
  | nil =>
    simp only [List.nil_append]
    rcases hrest with rfl | ⟨c, t, rfl, hc⟩
    · simp
    · simp [List.takeWhile, List.dropWhile, hc]
  | cons c0 nrest ih =>
    have hc0 : pred c0 = true := hn c0 (by simp)
    have hih := ih (fun c hc => hn c (by simp [hc]))
    constructor
    · simp [List.takeWhile_cons, hc0, hih.1]
    · simp [List.dropWhile_cons, hc0, hih.2]

/-! ## C8 infrastructure: preprocess and scheme evaluation -/

/-- urlunparse in terms of recombineParams. -/
theorem urlunparseM_eq (P : UrlParts) :
    urlunparseM P = urlunsplitM P.scheme P.netloc
      (recombineParams P.path P.params) P.query P.fragment := rfl

/-- Bool-level containment agrees with membership. -/
theorem contains_iff_mem (l : Str) (c : Char) : l.contains c = true ↔ c ∈ l := by
  simp [List.contains]

/-- The head of a dropWhile result falsifies the predicate. -/
theorem dropWhile_head_false (pred : Char → Bool) :
    ∀ (l : Str) c t, l.dropWhile pred = c :: t → pred c = false := by
  intro l
  induction l with
  | nil => intro c t h; cases h
  | cons a rest ih =>
    intro c t h
    rw [List.dropWhile_cons] at h
    split at h
    · exact ih c t h
    · cases h
      rename_i ha
      simpa using ha

/-- Unsafe bytes are C0 controls. -/
theorem unsafe_imp_c0 (c : Char) (h : isUnsafeByte c = true) :
    isC0OrSpace c = true := by
  simp only [isUnsafeByte, decide_eq_true_eq] at h
  rcases h with rfl | rfl | rfl <;> decide

/-- Everything surviving preprocess is free of unsafe bytes. -/
theorem preprocess_no_unsafe (u : Str) :
    ∀ c ∈ preprocess u, isUnsafeByte c = false := by
  intro c hc
  simp only [preprocess, List.mem_filter] at hc
  simpa using hc.2

/-- The head of a preprocessed string is not a C0 control or space. -/
theorem preprocess_head_not_c0 (u : Str) :
    ∀ c, (preprocess u).head? = some c → isC0OrSpace c = false := by
  intro c hc
  simp only [preprocess] at hc
  match hd : u.dropWhile isC0OrSpace with
  | [] => rw [hd] at hc; cases hc
  | c0 :: t =>
    have hc0 : isC0OrSpace c0 = false := dropWhile_head_false _ u c0 t hd
    have hc0u : isUnsafeByte c0 = false := by
      match hu : isUnsafeByte c0 with
      | false => rfl
      | true => rw [unsafe_imp_c0 c0 hu] at hc0; cases hc0
    rw [hd] at hc
    rw [List.filter_cons, if_pos (by simp [hc0u])] at hc
    simp only [List.head?] at hc
    cases hc
    exact hc0

/-- preprocess is the identity on clean strings. -/
theorem preprocess_eq_self (u : Str)
    (h1 : ∀ c ∈ u, isUnsafeByte c = false)
    (h2 : ∀ c, u.head? = some c → isC0OrSpace c = false) :
    preprocess u = u := by
  have hd : u.dropWhile isC0OrSpace = u := by
    cases u with
    | nil => simp
    | cons c t =>
      rw [List.dropWhile_cons, if_neg]
      simp [h2 c rfl]
  rw [preprocess, hd, List.filter_eq_self.mpr]
  intro a ha
  simp [h1 a ha]

/-- Evaluating splitScheme on a good scheme followed by a colon. -/
theorem splitScheme_good (s r : Str) (hs : SchemeGood s) :
    splitScheme (s ++ ':' :: r) = (s, r) := by
  obtain ⟨hne, hall, ⟨c0, rest, hcons, halpha⟩, hfix⟩ := hs
  have hnc : ':' ∉ s := by
    intro hmem
    have := hall _ hmem
    rw [show isSchemeChar ':' = false from by decide] at this
    cases this
  have hsf := (splitFirst_eq_some_iff ':' (s ++ ':' :: r) s r).mpr ⟨rfl, hnc⟩
  simp only [splitScheme, hsf]
  rw [if_pos]
  · rw [hfix]
  · rw [hcons]
    simp only [schemeOk, halpha, Bool.true_and]
    rw [← hcons]
    exact List.all_eq_true.mpr (fun c hc => hall c hc)

/-- splitScheme finds nothing when the string is empty or starts with a
non-letter. -/
theorem splitScheme_head_not_alpha (x : Str)
    (h : ∀ c t, x = c :: t → isAsciiAlphaChar c = false) :
    splitScheme x = ([], x) := by
  match hsf : splitFirst ':' x with
  | none => simp [splitScheme, hsf]
  | some (a, b) =>
    obtain ⟨hl, hm⟩ := (splitFirst_eq_some_iff ':' x a b).mp hsf
    simp only [splitScheme, hsf]
    rw [if_neg]
    intro hok
    cases a with
    | nil => simp [schemeOk] at hok
    | cons a0 at0 =>
      have := h a0 (at0 ++ ':' :: b) (by simpa using hl)
      simp only [schemeOk, this, Bool.false_and] at hok
      cases hok

/-- splitScheme finds nothing in a prefix-plus-delimited-suffix of a
string in which urlsplit found no scheme. -/
theorem splitScheme_prefix_guard (p z w : Str) (hpw : p <+: w)
    (hns : NoSchemeText w)
    (hz : z = [] ∨ z.head? = some ';' ∨ z.head? = some '?') :
    splitScheme (p ++ z) = ([], p ++ z) := by
  match hsf : splitFirst ':' (p ++ z) with
  | none => simp [splitScheme, hsf]
  | some (a, b) =>
    obtain ⟨hl, hm⟩ := (splitFirst_eq_some_iff ':' (p ++ z) a b).mp hsf
    simp only [splitScheme, hsf]
    rw [if_neg]
    intro hok
    have hzne : ∀ y : Str, z = ':' :: y → False := by
      intro y hy
      rcases hz with rfl | hh | hh
      · cases hy
      · rw [hy] at hh; simp at hh
      · rw [hy] at hh; simp at hh
    rcases List.append_eq_append_iff.mp hl with ⟨a2, ha1, ha2⟩ | ⟨c2, hc1, hc2⟩
    · cases a2 with
      | nil =>
        simp only [List.nil_append] at ha2
        exact hzne b ha2
      | cons z0 zt =>
        have hz0 : z0 ∈ a := by rw [ha1]; simp
        have hsch : isSchemeChar z0 = true := by
          rcases a with _ | ⟨a0, at0⟩
          · cases hz0
          · simp only [schemeOk, Bool.and_eq_true, List.all_eq_true] at hok
            exact hok.2 z0 hz0
        have hz0h : z.head? = some z0 := by rw [ha2]; rfl
        rcases hz with rfl | hh | hh
        · cases hz0h
        · rw [hz0h] at hh
          cases hh
          rw [show isSchemeChar ';' = false from by decide] at hsch
          cases hsch
        · rw [hz0h] at hh
          cases hh
          rw [show isSchemeChar '?' = false from by decide] at hsch
          cases hsch
    · cases c2 with
      | nil =>
        simp only [List.append_nil] at hc1
        subst hc1
        simp only [List.nil_append] at hc2
        exact hzne b hc2.symm
      | cons d dt =>
        have hd : d = ':' := by
          have := congrArg List.head? hc2
          simpa using this.symm
        subst hd
        obtain ⟨tail, htail⟩ := hpw
        have hw : w = a ++ ':' :: (dt ++ tail) := by
          rw [← htail, hc1]
          simp
        have := hns a (dt ++ tail) hw hm
        rw [this] at hok
        cases hok

/-! ## C8 infrastructure: params-split stability -/

/-- The params split yields a prefix of the path, with params drawn from
it. -/
theorem splitParamsIf_sub (s p0 p pr : Str) (h : splitParamsIf s p0 = (p, pr)) :
    p <+: p0 ∧ ∀ c ∈ pr, c ∈ p0 := by
  simp only [splitParamsIf] at h
  split at h
  · simp only [splitParamsRaw] at h
    match hsl : splitLast '/' p0 with
    | some (a, b) =>
      rw [hsl] at h
      dsimp only at h
      obtain ⟨hp0, hnb⟩ := (splitLast_eq_some_iff '/' p0 a b).mp hsl
      match hsf : splitFirst ';' b with
      | some (b1, b2) =>
        rw [hsf] at h
        dsimp only at h
        rw [Prod.mk.injEq] at h
        obtain ⟨rfl, rfl⟩ := h
        obtain ⟨hb, hnb1⟩ := (splitFirst_eq_some_iff ';' b b1 b2).mp hsf
        constructor
        · exact ⟨';' :: b2, by rw [hp0, hb]; simp⟩
        · intro c hc
          rw [hp0, hb]
          simp [hc]
      | none =>
        rw [hsf] at h
        dsimp only at h
        rw [Prod.mk.injEq] at h
        obtain ⟨rfl, rfl⟩ := h
        exact ⟨List.prefix_rfl, by simp⟩
    | none =>
      rw [hsl] at h
      dsimp only at h
      match hsf : splitFirst ';' p0 with
      | some (x, y) =>
        rw [hsf] at h
        dsimp only at h
        rw [Prod.mk.injEq] at h
        obtain ⟨rfl, rfl⟩ := h
        obtain ⟨hp0, hnx⟩ := (splitFirst_eq_some_iff ';' p0 x y).mp hsf
        exact ⟨⟨';' :: y, hp0.symm⟩, fun c hc => by rw [hp0]; simp [hc]⟩
      | none =>
        rw [hsf] at h
        dsimp only at h
        rw [Prod.mk.injEq] at h
        obtain ⟨rfl, rfl⟩ := h
        exact ⟨List.prefix_rfl, by simp⟩
  · rw [Prod.mk.injEq] at h
    obtain ⟨rfl, rfl⟩ := h
    exact ⟨List.prefix_rfl, by simp⟩

/-- When the params split produces non-empty params, the path plus a
semicolon plus the params reconstructs the input exactly. -/
theorem splitParamsIf_recon (s p0 p pr : Str) (h : splitParamsIf s p0 = (p, pr))
    (hne : pr ≠ []) : p0 = p ++ ';' :: pr := by
  simp only [splitParamsIf] at h
  split at h
  · simp only [splitParamsRaw] at h
    match hsl : splitLast '/' p0 with
    | some (a, b) =>
      rw [hsl] at h
      dsimp only at h
      obtain ⟨hp0, hnb⟩ := (splitLast_eq_some_iff '/' p0 a b).mp hsl
      match hsf : splitFirst ';' b with
      | some (b1, b2) =>
        rw [hsf] at h
        dsimp only at h
        rw [Prod.mk.injEq] at h
        obtain ⟨rfl, rfl⟩ := h
        obtain ⟨hb, hnb1⟩ := (splitFirst_eq_some_iff ';' b b1 b2).mp hsf
        rw [hp0, hb]
        simp
      | none =>
        rw [hsf] at h
        dsimp only at h
        rw [Prod.mk.injEq] at h
        obtain ⟨rfl, rfl⟩ := h
        exact absurd rfl hne
    | none =>
      rw [hsl] at h
      dsimp only at h
      match hsf : splitFirst ';' p0 with
      | some (x, y) =>
        rw [hsf] at h
        dsimp only at h
        rw [Prod.mk.injEq] at h
        obtain ⟨rfl, rfl⟩ := h
        exact ((splitFirst_eq_some_iff ';' p0 x y).mp hsf).1
      | none =>
        rw [hsf] at h
        dsimp only at h
        rw [Prod.mk.injEq] at h
        obtain ⟨rfl, rfl⟩ := h
        exact absurd rfl hne
  · rw [Prod.mk.injEq] at h
    obtain ⟨rfl, rfl⟩ := h
    exact absurd rfl hne

/-- Evaluating splitParamsRaw when no semicolon follows the last slash. -/
theorem splitParamsRaw_eval_slash_none (a b : Str) (hnb : '/' ∉ b)
    (hnsb : ';' ∉ b) :
    splitParamsRaw (a ++ '/' :: b) = (a ++ '/' :: b, []) := by
  have h1 : splitLast '/' (a ++ '/' :: b) = some (a, b) :=
    (splitLast_eq_some_iff '/' _ a b).mpr ⟨rfl, hnb⟩
  have h2 : splitFirst ';' b = none := (splitFirst_eq_none_iff ';' b).mpr hnsb
  simp only [splitParamsRaw, h1, h2]

/-- splitParamsIf leaves a semicolon-free path alone. -/
theorem splitParamsIf_no_semi (s u : Str) (h : ';' ∉ u) :
    splitParamsIf s u = (u, []) := by
  have hc : u.contains ';' = false := by
    rw [← Bool.not_eq_true]
    intro hcc
    exact h ((contains_iff_mem _ _).mp hcc)
  simp only [splitParamsIf, hc, Bool.and_false]
  rw [if_neg (by simp)]

/-- splitParamsIf is trivial for schemes that do not use params. -/
theorem splitParamsIf_no_params (s u : Str) (h : usesParams s = false) :
    splitParamsIf s u = (u, []) := by
  simp [splitParamsIf, h]

/-- Prepending a slash shifts the params split uniformly: a leading slash
becomes the reference last-slash when none is present, and is otherwise
absorbed into the pre-slash prefix, leaving the split point unchanged. -/
theorem splitParamsRaw_cons_slash (p0 : Str) :
    splitParamsRaw ('/' :: p0) =
      ('/' :: (splitParamsRaw p0).1, (splitParamsRaw p0).2) := by
  rcases hsl : splitLast '/' p0 with _ | ⟨a, b⟩
  · have hnsl : '/' ∉ p0 := (splitLast_eq_none_iff '/' p0).mp hsl
    have hsl2 : splitLast '/' ('/' :: p0) = some ([], p0) :=
      (splitLast_eq_some_iff '/' ('/' :: p0) [] p0).mpr ⟨rfl, hnsl⟩
    rcases hsf : splitFirst ';' p0 with _ | ⟨x, y⟩
    · simp only [splitParamsRaw, hsl, hsl2, hsf]
    · simp only [splitParamsRaw, hsl, hsl2, hsf, List.nil_append]
  · obtain ⟨hp0, hnb⟩ := (splitLast_eq_some_iff '/' p0 a b).mp hsl
    have hsl2 : splitLast '/' ('/' :: p0) = some ('/' :: a, b) :=
      (splitLast_eq_some_iff '/' ('/' :: p0) ('/' :: a) b).mpr
        ⟨by rw [hp0]; rfl, hnb⟩
    rcases hsf : splitFirst ';' b with _ | ⟨b1, b2⟩
    · simp only [splitParamsRaw, hsl, hsl2, hsf]
    · simp only [splitParamsRaw, hsl, hsl2, hsf, List.cons_append]

/-- The scheme-conditional params split commutes with a leading slash. -/
theorem splitParamsIf_cons_slash (s p0 : Str) :
    splitParamsIf s ('/' :: p0) =
      ('/' :: (splitParamsIf s p0).1, (splitParamsIf s p0).2) := by
  have hcc : ('/' :: p0).contains ';' = p0.contains ';' := by
    by_cases hm : ';' ∈ p0
    · rw [(contains_iff_mem _ _).mpr hm,
        (contains_iff_mem ('/' :: p0) ';').mpr (by simp [hm])]
    · have h1 : p0.contains ';' = false := by
        rw [← Bool.not_eq_true]
        intro hx
        exact hm ((contains_iff_mem _ _).mp hx)
      have h2 : ('/' :: p0).contains ';' = false := by
        rw [← Bool.not_eq_true]
        intro hx
        rcases List.mem_cons.mp ((contains_iff_mem _ _).mp hx) with h3 | h3
        · cases h3
        · exact hm h3
      rw [h1, h2]
  simp only [splitParamsIf, hcc]
  split
  · exact splitParamsRaw_cons_slash p0
  · rfl

/-- Splitting params again on an already-stripped path changes nothing. -/
theorem splitParamsIf_stable (s p0 p : Str) (h : splitParamsIf s p0 = (p, [])) :
    splitParamsIf s p = (p, []) := by
  simp only [splitParamsIf] at h
  split at h
  case isTrue hcond =>
    simp only [Bool.and_eq_true] at hcond
    obtain ⟨hup, hcont⟩ := hcond
    simp only [splitParamsRaw] at h
    rcases hsl : splitLast '/' p0 with _ | ⟨a, b⟩
    · rw [hsl] at h
      dsimp only at h
      rcases hsf : splitFirst ';' p0 with _ | ⟨x, y⟩
      · rw [hsf] at h
        dsimp only at h
        rw [Prod.mk.injEq] at h
        obtain ⟨rfl, -⟩ := h
        simp only [splitParamsIf]
        rw [if_pos (by rw [Bool.and_eq_true]; exact ⟨hup, hcont⟩)]
        simp only [splitParamsRaw, hsl, hsf]
      · rw [hsf] at h
        dsimp only at h
        rw [Prod.mk.injEq] at h
        obtain ⟨rfl, hy⟩ := h
        obtain ⟨hp0, hnx⟩ := (splitFirst_eq_some_iff ';' p0 x y).mp hsf
        exact splitParamsIf_no_semi s _ hnx
    · rw [hsl] at h
      dsimp only at h
      obtain ⟨hp0, hnb⟩ := (splitLast_eq_some_iff '/' p0 a b).mp hsl
      rcases hsf : splitFirst ';' b with _ | ⟨b1, b2⟩
      · rw [hsf] at h
        dsimp only at h
        rw [Prod.mk.injEq] at h
        obtain ⟨rfl, -⟩ := h
        simp only [splitParamsIf]
        rw [if_pos (by rw [Bool.and_eq_true]; exact ⟨hup, hcont⟩)]
        simp only [splitParamsRaw, hsl, hsf]
      · rw [hsf] at h
        dsimp only at h
        obtain ⟨hb, hnb1⟩ := (splitFirst_eq_some_iff ';' b b1 b2).mp hsf
        rw [Prod.mk.injEq] at h
        obtain ⟨rfl, rfl⟩ := h
        have hnb1s : '/' ∉ b1 := fun hmem => hnb (by rw [hb]; simp [hmem])
        by_cases hc2 : ';' ∈ a ++ '/' :: b1
        · simp only [splitParamsIf]
          rw [if_pos (by
            rw [Bool.and_eq_true]
            exact ⟨hup, (contains_iff_mem _ _).mpr hc2⟩)]
          exact splitParamsRaw_eval_slash_none a b1 hnb1s hnb1
        · exact splitParamsIf_no_semi s _ hc2
  case isFalse hcond =>
    rw [Prod.mk.injEq] at h
    obtain ⟨rfl, -⟩ := h
    simp only [splitParamsIf]
    rw [if_neg hcond]

/-! ## C8 infrastructure: parse-output facts -/

/-- urlparseM decomposes into the scheme split followed by parseRest. -/
theorem urlparseM_eq_parseRest (u : Str) :
    urlparseM u =
      parseRest (splitScheme (preprocess u)).1 (splitScheme (preprocess u)).2 := rfl

/-- A prefix is empty or shares its head with the whole. -/
theorem prefix_head (x y : Str) (h : x <+: y) : x = [] ∨ x.head? = y.head? := by
  obtain ⟨t, rfl⟩ := h
  cases x <;> simp

/-- Case analysis of the scheme split. -/
theorem splitScheme_cases (w : Str) :
    splitScheme w = ([], w) ∨
    ∃ s0 r, w = s0 ++ ':' :: r ∧ ':' ∉ s0 ∧ schemeOk s0 = true ∧
      splitScheme w = (s0.map Char.toLower, r) := by
  match hsf : splitFirst ':' w with
  | none => exact Or.inl (by simp [splitScheme, hsf])
  | some (pre, post) =>
    obtain ⟨hw, hm⟩ := (splitFirst_eq_some_iff ':' w pre post).mp hsf
    by_cases hok : schemeOk pre = true
    · exact Or.inr ⟨pre, post, hw, hm, hok, by simp [splitScheme, hsf, hok]⟩
    · exact Or.inl (by simp [splitScheme, hsf, hok])

/-- A successful scheme split produces a good scheme. -/
theorem schemeGood_of_ok (s0 : Str) (h : schemeOk s0 = true) :
    SchemeGood (s0.map Char.toLower) := by
  match s0, h with
  | c :: t, h =>
    simp only [schemeOk, Bool.and_eq_true, List.all_eq_true] at h
    obtain ⟨halpha, hall⟩ := h
    refine ⟨by simp, ?_, ?_, ?_⟩
    · intro d hd
      obtain ⟨e, he, rfl⟩ := List.mem_map.mp hd
      exact isSchemeChar_toLower e (hall e he)
    · exact ⟨Char.toLower c, t.map Char.toLower, by simp,
        (isAsciiAlphaChar_toLower c halpha).1⟩
    · rw [List.map_map]
      apply List.map_congr_left
      intro d hd
      exact toLower_toLower d

/-- When the scheme split finds nothing, no colon decomposition of the
input is scheme-shaped. -/
theorem noSchemeText_of_split (w : Str) (h : splitScheme w = ([], w)) :
    NoSchemeText w := by
  intro a b hdecomp hnotin
  have hsf : splitFirst ':' w = some (a, b) :=
    (splitFirst_eq_some_iff ':' w a b).mpr ⟨hdecomp, hnotin⟩
  by_cases hok : schemeOk a = true
  · exfalso
    rw [splitScheme, hsf] at h
    dsimp only at h
    rw [if_pos hok] at h
    rw [Prod.mk.injEq] at h
    have : a = [] := by
      have := h.1
      cases a with
      | nil => rfl
      | cons c t => cases this
    rw [this] at hok
    simp [schemeOk] at hok
  · simpa using hok

/-- The components produced by splitFragQ: the first is a separator-free
prefix, the second is drawn from the input. -/
theorem splitFragQ_parts (sep : Char) (x : Str) :
    (splitFragQ sep x).1 <+: x
    ∧ (∀ c ∈ (splitFragQ sep x).2, c ∈ x)
    ∧ sep ∉ (splitFragQ sep x).1 := by
  match hsf : splitFirst sep x with
  | none =>
    have hm := (splitFirst_eq_none_iff sep x).mp hsf
    simp only [splitFragQ, hsf]
    exact ⟨List.prefix_rfl, by simp, hm⟩
  | some (a, b) =>
    obtain ⟨hx, hm⟩ := (splitFirst_eq_some_iff sep x a b).mp hsf
    simp only [splitFragQ, hsf]
    exact ⟨⟨sep :: b, hx.symm⟩, fun c hc => by rw [hx]; simp [hc], hm⟩

/-- Recombined path+params cannot begin with a double slash unless the
enclosing string the path prefixes does. -/
theorem recombine_take2_ne (p pr r1 : Str) (hp : p <+: r1)
    (hr : ¬ r1.take 2 = ['/', '/']) :
    ¬ (recombineParams p pr).take 2 = ['/', '/'] := by
  obtain ⟨t, rfl⟩ := hp
  match p with
  | c1 :: c2 :: rest =>
    intro hc
    apply hr
    simp only [recombineParams] at hc
    split at hc <;> simp_all
  | [c] =>
    intro hc
    simp only [recombineParams] at hc
    split at hc <;> simp_all
  | [] =>
    intro hc
    simp only [recombineParams] at hc
    split at hc <;> simp_all

/-- A head witnessed by head? is a member. -/
theorem mem_of_head (l : Str) (c : Char) (h : l.head? = some c) : c ∈ l := by
  cases l with
  | nil => cases h
  | cons a t =>
    simp only [List.head?] at h
    cases h
    simp

/-- The facts guaranteed by the fragment, query and params stages run on
a post-netloc remainder r2. -/
theorem stage_facts (s r2 R3 F P0 Q P PR : Str)
    (h3 : splitFragQ '#' r2 = (R3, F))
    (hq : splitFragQ '?' R3 = (P0, Q))
    (hp : splitParamsIf s P0 = (P, PR)) :
    ('#' ∉ P ∧ '?' ∉ P ∧ '#' ∉ PR ∧ '?' ∉ PR ∧ '#' ∉ Q)
    ∧ ((∀ c ∈ P, c ∈ r2) ∧ (∀ c ∈ PR, c ∈ r2) ∧ (∀ c ∈ Q, c ∈ r2))
    ∧ P <+: r2
    ∧ ((r2 = [] ∨ r2.head? = some '/' ∨ r2.head? = some '?' ∨ r2.head? = some '#') →
        ((P = [] ∧ PR = []) ∨ P.head? = some '/'))
    ∧ splitParamsIf s (recombineParams P PR) = (P, PR) := by
  have h3p := splitFragQ_parts '#' r2
  rw [h3] at h3p
  have hqp := splitFragQ_parts '?' R3
  rw [hq] at hqp
  have hpp := splitParamsIf_sub s P0 P PR hp
  have hPP0 : ∀ c ∈ P, c ∈ P0 := fun c hc => hpp.1.sublist.subset hc
  have hP0R3 : ∀ c ∈ P0, c ∈ R3 := fun c hc => hqp.1.sublist.subset hc
  have hR3r2 : ∀ c ∈ R3, c ∈ r2 := fun c hc => h3p.1.sublist.subset hc
  have hPRP0 : ∀ c ∈ PR, c ∈ P0 := hpp.2
  have hQR3 : ∀ c ∈ Q, c ∈ R3 := hqp.2.1
  refine ⟨⟨?_, ?_, ?_, ?_, ?_⟩, ⟨?_, ?_, ?_⟩, ?_, ?_, ?_⟩
  · exact fun hm => h3p.2.2 (hP0R3 _ (hPP0 _ hm))
  · exact fun hm => hqp.2.2 (hPP0 _ hm)
  · exact fun hm => h3p.2.2 (hP0R3 _ (hPRP0 _ hm))
  · exact fun hm => hqp.2.2 (hPRP0 _ hm)
  · exact fun hm => h3p.2.2 (hQR3 _ hm)
  · exact fun c hc => hR3r2 _ (hP0R3 _ (hPP0 _ hc))
  · exact fun c hc => hR3r2 _ (hP0R3 _ (hPRP0 _ hc))
  · exact fun c hc => hR3r2 _ (hQR3 _ hc)
  · exact (hpp.1.trans hqp.1).trans h3p.1
  · -- shape propagation
    intro hshape
    have hP0nil_case : P0 = [] → (P = [] ∧ PR = []) ∨ P.head? = some '/' := by
      intro h0
      left
      constructor
      · exact List.eq_nil_iff_forall_not_mem.mpr
          (fun a ha => by rw [h0] at hPP0; exact (List.not_mem_nil a) (hPP0 a ha))
      · exact List.eq_nil_iff_forall_not_mem.mpr
          (fun a ha => by rw [h0] at hPRP0; exact (List.not_mem_nil a) (hPRP0 a ha))
    have hR3nil_case : R3 = [] → (P = [] ∧ PR = []) ∨ P.head? = some '/' := by
      intro h0
      apply hP0nil_case
      exact List.eq_nil_iff_forall_not_mem.mpr
        (fun a ha => by rw [h0] at hP0R3; exact (List.not_mem_nil a) (hP0R3 a ha))
    rcases hshape with h0 | hh | hh | hh
    · apply hR3nil_case
      exact List.eq_nil_iff_forall_not_mem.mpr
        (fun a ha => by rw [h0] at hR3r2; exact (List.not_mem_nil a) (hR3r2 a ha))
    · -- r2 begins with a slash
      rcases prefix_head R3 r2 h3p.1 with h0 | hhd
      · exact hR3nil_case h0
      · rw [hh] at hhd
        rcases prefix_head P0 R3 hqp.1 with h0 | hhd2
        · exact hP0nil_case h0
        · rw [hhd] at hhd2
          cases hPc : P with
          | nil =>
            rcases hPRc : PR with _ | ⟨d, dt⟩
            · exact Or.inl ⟨rfl, rfl⟩
            · exfalso
              have hrecon := splitParamsIf_recon s P0 P PR hp (by rw [hPRc]; simp)
              rw [hPc] at hrecon
              simp only [List.nil_append] at hrecon
              rw [hrecon] at hhd2
              simp at hhd2
          | cons c ct =>
            rcases prefix_head P P0 hpp.1 with h0 | hhd3
            · rw [hPc] at h0; cases h0
            · right
              rw [← hPc, hhd3, hhd2]
    · -- r2 begins with a question mark
      rcases prefix_head R3 r2 h3p.1 with h0 | hhd
      · exact hR3nil_case h0
      · rw [hh] at hhd
        rcases prefix_head P0 R3 hqp.1 with h0 | hhd2
        · exact hP0nil_case h0
        · rw [hhd] at hhd2
          exfalso
          exact hqp.2.2 (mem_of_head P0 '?' hhd2)
    · -- r2 begins with a hash
      rcases prefix_head R3 r2 h3p.1 with h0 | hhd
      · exact hR3nil_case h0
      · rw [hh] at hhd
        exfalso
        exact h3p.2.2 (mem_of_head R3 '#' hhd)
  · -- params re-split
    by_cases hpr : PR = []
    · subst hpr
      have : recombineParams P [] = P := by simp [recombineParams]
      rw [this]
      exact splitParamsIf_stable s P0 P hp
    · have hrecon := splitParamsIf_recon s P0 P PR hp hpr
      have : recombineParams P PR = P0 := by
        simp only [recombineParams]
        rw [if_pos hpr, ← hrecon]
      rw [this]
      exact hp

/-- The facts the post-scheme parse stages guarantee. -/
theorem parseRest_facts (s r1 : Str) :
    (∀ c ∈ (parseRest s r1).netloc, isNetlocDelim c = false)
    ∧ ('#' ∉ (parseRest s r1).path ∧ '?' ∉ (parseRest s r1).path ∧
       '#' ∉ (parseRest s r1).params ∧ '?' ∉ (parseRest s r1).params ∧
       '#' ∉ (parseRest s r1).query)
    ∧ ((∀ c ∈ (parseRest s r1).netloc, c ∈ r1) ∧
       (∀ c ∈ (parseRest s r1).path, c ∈ r1) ∧
       (∀ c ∈ (parseRest s r1).params, c ∈ r1) ∧
       (∀ c ∈ (parseRest s r1).query, c ∈ r1))
    ∧ (((parseRest s r1).path = [] ∧ (parseRest s r1).params = []) ∨
       (parseRest s r1).path.head? = some '/' ∨
       ((parseRest s r1).netloc = [] ∧
        ¬(recombineParams (parseRest s r1).path (parseRest s r1).params).take 2 =
          ['/', '/'] ∧
        (parseRest s r1).path <+: r1))
    ∧ splitParamsIf s
        (recombineParams (parseRest s r1).path (parseRest s r1).params) =
      ((parseRest s r1).path, (parseRest s r1).params) := by
  by_cases hbr : r1.take 2 = ['/', '/']
  · have hP : parseRest s r1 =
        ⟨s, (r1.drop 2).takeWhile (fun c => !isNetlocDelim c),
         (splitParamsIf s ((splitFragQ '?' ((splitFragQ '#'
            ((r1.drop 2).dropWhile (fun c => !isNetlocDelim c))).1)).1)).1,
         (splitParamsIf s ((splitFragQ '?' ((splitFragQ '#'
            ((r1.drop 2).dropWhile (fun c => !isNetlocDelim c))).1)).1)).2,
         (splitFragQ '?' ((splitFragQ '#'
            ((r1.drop 2).dropWhile (fun c => !isNetlocDelim c))).1)).2,
         (splitFragQ '#' ((r1.drop 2).dropWhile (fun c => !isNetlocDelim c))).2⟩ := by
      simp only [parseRest]
      rw [if_pos hbr]
    rw [hP]
    have hst := stage_facts s ((r1.drop 2).dropWhile (fun c => !isNetlocDelim c))
      _ _ _ _ _ _ rfl rfl rfl
    have hr2r1 : ∀ c ∈ (r1.drop 2).dropWhile (fun c => !isNetlocDelim c), c ∈ r1 :=
      fun c hc => List.drop_subset 2 r1 ((List.dropWhile_sublist _).subset hc)
    have hshape : ((r1.drop 2).dropWhile (fun c => !isNetlocDelim c)) = [] ∨
        ((r1.drop 2).dropWhile (fun c => !isNetlocDelim c)).head? = some '/' ∨
        ((r1.drop 2).dropWhile (fun c => !isNetlocDelim c)).head? = some '?' ∨
        ((r1.drop 2).dropWhile (fun c => !isNetlocDelim c)).head? = some '#' := by
      match hr2 : (r1.drop 2).dropWhile (fun c => !isNetlocDelim c) with
      | [] => exact Or.inl rfl
      | c :: t =>
        right
        have hd := dropWhile_head_false (fun c => !isNetlocDelim c) (r1.drop 2) c t hr2
        have hdel : isNetlocDelim c = true := by simpa using hd
        simp only [isNetlocDelim, decide_eq_true_eq] at hdel
        rcases hdel with rfl | rfl | rfl
        · exact Or.inl rfl
        · exact Or.inr (Or.inl rfl)
        · exact Or.inr (Or.inr rfl)
    refine ⟨?_, ?_, ?_, ?_, ?_⟩
    · intro c hc
      have := List.mem_takeWhile_imp hc
      simpa using this
    · exact hst.1
    · refine ⟨?_, ?_, ?_, ?_⟩
      · intro c hc
        exact List.drop_subset 2 r1 ((List.takeWhile_sublist _).subset hc)
      · exact fun c hc => hr2r1 c (hst.2.1.1 c hc)
      · exact fun c hc => hr2r1 c (hst.2.1.2.1 c hc)
      · exact fun c hc => hr2r1 c (hst.2.1.2.2 c hc)
    · rcases hst.2.2.2.1 hshape with ⟨h1, h2⟩ | hh
      · exact Or.inl ⟨h1, h2⟩
      · exact Or.inr (Or.inl hh)
    · exact hst.2.2.2.2
  · have hP : parseRest s r1 =
        ⟨s, [],
         (splitParamsIf s ((splitFragQ '?' ((splitFragQ '#' r1).1)).1)).1,
         (splitParamsIf s ((splitFragQ '?' ((splitFragQ '#' r1).1)).1)).2,
         (splitFragQ '?' ((splitFragQ '#' r1).1)).2,
         (splitFragQ '#' r1).2⟩ := by
      simp only [parseRest]
      rw [if_neg hbr]
    rw [hP]
    have hst := stage_facts s r1 _ _ _ _ _ _ rfl rfl rfl
    refine ⟨?_, ?_, ?_, ?_, ?_⟩
    · intro c hc
      cases hc
    · exact hst.1
    · refine ⟨?_, ?_, ?_, ?_⟩
      · intro c hc
        cases hc
      · exact hst.2.1.1
      · exact hst.2.1.2.1
      · exact hst.2.1.2.2
    · exact Or.inr (Or.inr ⟨rfl,
        recombine_take2_ne _ _ r1 hst.2.2.1 hbr, hst.2.2.1⟩)
    · exact hst.2.2.2.2

/-- Projection of parseRest's scheme. -/
theorem parseRest_scheme (s r1 : Str) : (parseRest s r1).scheme = s := rfl

/-- All well-formedness facts of a parsed URL needed for reserialization
stability. -/
theorem urlparseM_facts (u : Str) :
    ((urlparseM u).scheme = [] ∨ SchemeGood (urlparseM u).scheme)
    ∧ ((urlparseM u).scheme = [] → NoSchemeText (preprocess u))
    ∧ (∀ c ∈ (urlparseM u).netloc, isNetlocDelim c = false)
    ∧ ('#' ∉ (urlparseM u).path ∧ '?' ∉ (urlparseM u).path ∧
       '#' ∉ (urlparseM u).params ∧ '?' ∉ (urlparseM u).params ∧
       '#' ∉ (urlparseM u).query)
    ∧ ((∀ c ∈ (urlparseM u).netloc, c ∈ preprocess u) ∧
       (∀ c ∈ (urlparseM u).path, c ∈ preprocess u) ∧
       (∀ c ∈ (urlparseM u).params, c ∈ preprocess u) ∧
       (∀ c ∈ (urlparseM u).query, c ∈ preprocess u))
    ∧ (((urlparseM u).path = [] ∧ (urlparseM u).params = []) ∨
       (urlparseM u).path.head? = some '/' ∨
       ((urlparseM u).netloc = [] ∧
        ¬(recombineParams (urlparseM u).path (urlparseM u).params).take 2 =
          ['/', '/'] ∧
        ((urlparseM u).scheme = [] → (urlparseM u).path <+: preprocess u)))
    ∧ splitParamsIf (urlparseM u).scheme
        (recombineParams (urlparseM u).path (urlparseM u).params) =
      ((urlparseM u).path, (urlparseM u).params) := by
  rcases splitScheme_cases (preprocess u) with hs | ⟨s0, r, hw, hnc, hok, hs⟩
  · have hU : urlparseM u = parseRest [] (preprocess u) := by
      rw [urlparseM_eq_parseRest, hs]
    have hpf := parseRest_facts [] (preprocess u)
    rw [hU]
    refine ⟨Or.inl rfl, fun _ => noSchemeText_of_split _ hs, hpf.1, hpf.2.1,
      hpf.2.2.1, ?_, ?_⟩
    · rcases hpf.2.2.2.1 with h1 | h1 | ⟨h1, h2, h3⟩
      · exact Or.inl h1
      · exact Or.inr (Or.inl h1)
      · exact Or.inr (Or.inr ⟨h1, h2, fun _ => h3⟩)
    · rw [parseRest_scheme]
      exact hpf.2.2.2.2
  · have hU : urlparseM u = parseRest (s0.map Char.toLower) r := by
      rw [urlparseM_eq_parseRest, hs]
    have hpf := parseRest_facts (s0.map Char.toLower) r
    have hgood := schemeGood_of_ok s0 hok
    have hrw : ∀ c ∈ r, c ∈ preprocess u := by
      intro c hc
      rw [hw]
      simp [hc]
    have hsne : (parseRest (s0.map Char.toLower) r).scheme ≠ [] := by
      rw [parseRest_scheme]
      exact hgood.1
    rw [hU]
    refine ⟨Or.inr (by rw [parseRest_scheme]; exact hgood),
      fun hq => absurd hq hsne, hpf.1, hpf.2.1, ?_, ?_, ?_⟩
    · exact ⟨fun c hc => hrw c (hpf.2.2.1.1 c hc),
        fun c hc => hrw c (hpf.2.2.1.2.1 c hc),
        fun c hc => hrw c (hpf.2.2.1.2.2.1 c hc),
        fun c hc => hrw c (hpf.2.2.1.2.2.2 c hc)⟩
    · rcases hpf.2.2.2.1 with h1 | h1 | ⟨h1, h2, h3⟩
      · exact Or.inl h1
      · exact Or.inr (Or.inl h1)
      · exact Or.inr (Or.inr ⟨h1, h2, fun hq => absurd hq hsne⟩)
    · rw [parseRest_scheme]
      exact hpf.2.2.2.2

/-- take 2 of an appended query part cannot create a double slash. -/
theorem take2_append_ne (x Q : Str) (hx : ¬ x.take 2 = ['/', '/'])
    (hQ : Q = [] ∨ Q.head? = some '?') :
    ¬ (x ++ Q).take 2 = ['/', '/'] := by
  match x with
  | c1 :: c2 :: rest => simpa using hx
  | [c] =>
    rcases hQ with rfl | hh
    · simpa using hx
    · cases Q with
      | nil => cases hh
      | cons d t =>
        have hd : d = '?' := by
          simp only [List.head?] at hh
          exact Option.some.inj hh
        subst hd
        intro hc
        simp at hc
  | [] =>
    rcases hQ with rfl | hh
    · simp
    · cases Q with
      | nil => cases hh
      | cons d t =>
        have hd : d = '?' := by
          simp only [List.head?] at hh
          exact Option.some.inj hh
        subst hd
        intro hc
        simp at hc

/-- The recombined path cannot begin with a double slash when the path
itself does not. -/
theorem recombine_take2_ne_of_path (p pr : Str) (hp : ¬ p.take 2 = ['/', '/']) :
    ¬ (recombineParams p pr).take 2 = ['/', '/'] := by
  match p with
  | c1 :: c2 :: rest =>
    intro hc
    apply hp
    simp only [recombineParams] at hc
    split at hc <;> simp_all
  | [c] =>
    intro hc
    simp only [recombineParams] at hc
    split at hc <;> simp_all
  | [] =>
    intro hc
    simp only [recombineParams] at hc
    split at hc <;> simp_all

/-- Recombination commutes with a leading slash on the path. -/
theorem recombine_cons_slash (p pr : Str) :
    recombineParams ('/' :: p) pr = '/' :: recombineParams p pr := by
  simp only [recombineParams]
  split <;> rfl

/-- The serialized authority form of urlunsplit when the marker condition
holds and the path begins with a slash or is empty. -/
theorem unsplit_form_auth (s n p1 q : Str)
    (hcond : n ≠ [] ∨ (s ≠ [] ∧ usesNetloc s = true ∧ p1.take 2 ≠ ['/', '/']))
    (hins : p1 = [] ∨ p1.take 1 = ['/']) :
    urlunsplitM s n p1 q [] =
      (if s = [] then [] else s ++ [':']) ++ '/' :: '/' :: (n ++ p1) ++
        (if q = [] then [] else '?' :: q) := by
  have hfrag : ¬ (([] : Str) ≠ []) := by simp
  have hi : ¬ (p1 ≠ [] ∧ p1.take 1 ≠ ['/']) := by
    rintro ⟨h1, h2⟩
    rcases hins with rfl | hh
    · exact h1 rfl
    · exact h2 hh
  simp only [urlunsplitM]
  rw [if_pos hcond, if_neg hi, if_neg hfrag]
  by_cases hsq : s = [] <;> by_cases hq : q = [] <;>
    simp [hsq, hq, List.append_assoc]

/-- The serialized authority form when the slash insertion fires. -/
theorem unsplit_form_auth_ins (s n p1 q : Str)
    (hcond : n ≠ [] ∨ (s ≠ [] ∧ usesNetloc s = true ∧ p1.take 2 ≠ ['/', '/']))
    (hins : p1 ≠ [] ∧ p1.take 1 ≠ ['/']) :
    urlunsplitM s n p1 q [] =
      (if s = [] then [] else s ++ [':']) ++ '/' :: '/' :: (n ++ '/' :: p1) ++
        (if q = [] then [] else '?' :: q) := by
  have hfrag : ¬ (([] : Str) ≠ []) := by simp
  simp only [urlunsplitM]
  rw [if_pos hcond, if_pos hins, if_neg hfrag]
  by_cases hsq : s = [] <;> by_cases hq : q = [] <;>
    simp [hsq, hq, List.append_assoc]

/-- The serialized bare form of urlunsplit when the marker condition
fails. -/
theorem unsplit_form_bare (s n p1 q : Str)
    (hcond : ¬ (n ≠ [] ∨ (s ≠ [] ∧ usesNetloc s = true ∧ p1.take 2 ≠ ['/', '/']))) :
    urlunsplitM s n p1 q [] =
      (if s = [] then [] else s ++ [':']) ++ p1 ++
        (if q = [] then [] else '?' :: q) := by
  have hfrag : ¬ (([] : Str) ≠ []) := by simp
  simp only [urlunsplitM]
  rw [if_neg hcond, if_neg hfrag]
  by_cases hsq : s = [] <;> by_cases hq : q = [] <;>
    simp [hsq, hq, List.append_assoc]

/-- ASCII letters are above the C0/space range. -/
theorem alpha_not_c0 (c : Char) (h : isAsciiAlphaChar c = true) :
    isC0OrSpace c = false := by
  rcases (isAsciiAlphaChar_iff c).mp h with ⟨h1, _⟩ | ⟨h1, _⟩ <;>
    · simp only [isC0OrSpace, decide_eq_false_iff_not]
      omega

/-- The fragment split leaves a hash-free path-plus-query intact. -/
theorem splitFragQ_hash_pq (p1 q : Str) (hp : '#' ∉ p1) (hq : '#' ∉ q) :
    splitFragQ '#' (p1 ++ (if q = [] then [] else '?' :: q)) =
      (p1 ++ (if q = [] then [] else '?' :: q), []) := by
  apply splitFragQ_of_not_mem
  intro hm
  rcases List.mem_append.mp hm with h1 | h1
  · exact hp h1
  · by_cases hqe : q = []
    · rw [if_pos hqe] at h1
      exact absurd h1 (List.not_mem_nil _)
    · rw [if_neg hqe] at h1
      rcases List.mem_cons.mp h1 with h2 | h2
      · exact absurd h2 (by decide)
      · exact hq h2

/-- The query split recovers the path and query from their serialized
concatenation. -/
theorem splitFragQ_question_pq (p1 q : Str) (hp : '?' ∉ p1) :
    splitFragQ '?' (p1 ++ (if q = [] then [] else '?' :: q)) = (p1, q) := by
  by_cases hqe : q = []
  · subst hqe
    rw [if_pos rfl, List.append_nil]
    exact splitFragQ_of_not_mem '?' p1 hp
  · rw [if_neg hqe]
    exact splitFragQ_append '?' p1 q hp

/-- Evaluation of the post-scheme parsing stages on an authority-form
remainder: the netloc, path, params and query are recovered exactly. -/
theorem parseRest_eval_auth (s n p1x p pr q r1 : Str)
    (hbr : r1.take 2 = ['/', '/'])
    (hdr : r1.drop 2 = n ++ (p1x ++ (if q = [] then [] else '?' :: q)))
    (hn : ∀ c ∈ n, isNetlocDelim c = false)
    (hshape : p1x = [] ∨ p1x.head? = some '/')
    (hcp : '#' ∉ p1x ∧ '?' ∉ p1x) (hcq : '#' ∉ q)
    (hparams : splitParamsIf s p1x = (p, pr)) :
    parseRest s r1 = ⟨s, n, p, pr, q, []⟩ := by
  have hrest : p1x ++ (if q = [] then [] else '?' :: q) = [] ∨
      ∃ c t, p1x ++ (if q = [] then [] else '?' :: q) = c :: t ∧
        (fun c => !isNetlocDelim c) c = false := by
    rcases hshape with rfl | hh
    · by_cases hq : q = []
      · rw [if_pos hq]
        exact Or.inl rfl
      · rw [if_neg hq]
        exact Or.inr ⟨'?', q, rfl, by decide⟩
    · cases p1x with
      | nil => cases hh
      | cons d t =>
        have hd : d = '/' := by
          simp only [List.head?] at hh
          exact Option.some.inj hh
        subst hd
        exact Or.inr ⟨'/', t ++ (if q = [] then [] else '?' :: q), rfl, by decide⟩
  have htd := takeWhile_dropWhile_all_append (fun c => !isNetlocDelim c) n
    (p1x ++ (if q = [] then [] else '?' :: q))
    (fun c hc => by simp [hn c hc]) hrest
  have hP : parseRest s r1 =
      ⟨s, (r1.drop 2).takeWhile (fun c => !isNetlocDelim c),
       (splitParamsIf s ((splitFragQ '?' ((splitFragQ '#'
          ((r1.drop 2).dropWhile (fun c => !isNetlocDelim c))).1)).1)).1,
       (splitParamsIf s ((splitFragQ '?' ((splitFragQ '#'
          ((r1.drop 2).dropWhile (fun c => !isNetlocDelim c))).1)).1)).2,
       (splitFragQ '?' ((splitFragQ '#'
          ((r1.drop 2).dropWhile (fun c => !isNetlocDelim c))).1)).2,
       (splitFragQ '#' ((r1.drop 2).dropWhile (fun c => !isNetlocDelim c))).2⟩ := by
    simp only [parseRest]
    rw [if_pos hbr]
  rw [hP, hdr, htd.1, htd.2]
  simp only [splitFragQ_hash_pq p1x q hcp.1 hcq,
    splitFragQ_question_pq p1x q hcp.2, hparams]

/-- Evaluation of the post-scheme parsing stages on a bare (no authority
marker) remainder. -/
theorem parseRest_eval_bare (s p1 p pr q r1 : Str)
    (hbr : ¬ r1.take 2 = ['/', '/'])
    (hr1 : r1 = p1 ++ (if q = [] then [] else '?' :: q))
    (hcp : '#' ∉ p1 ∧ '?' ∉ p1) (hcq : '#' ∉ q)
    (hparams : splitParamsIf s p1 = (p, pr)) :
    parseRest s r1 = ⟨s, [], p, pr, q, []⟩ := by
  have hP : parseRest s r1 =
      ⟨s, [],
       (splitParamsIf s ((splitFragQ '?' ((splitFragQ '#' r1).1)).1)).1,
       (splitParamsIf s ((splitFragQ '?' ((splitFragQ '#' r1).1)).1)).2,
       (splitFragQ '?' ((splitFragQ '#' r1).1)).2,
       (splitFragQ '#' r1).2⟩ := by
    simp only [parseRest]
    rw [if_neg hbr]
  rw [hP, hr1]
  simp only [splitFragQ_hash_pq p1 q hcp.1 hcq,
    splitFragQ_question_pq p1 q hcp.2, hparams]

/-- Reparsing a URL serialized in authority form recovers its
components. -/
theorem parse_authority (s n p1x p pr q : Str)
    (hs : s = [] ∨ SchemeGood s)
    (hn : ∀ c ∈ n, isNetlocDelim c = false)
    (hcp : '#' ∉ p1x ∧ '?' ∉ p1x) (hcq : '#' ∉ q)
    (hcln : ∀ c ∈ n, isUnsafeByte c = false)
    (hclp : ∀ c ∈ p1x, isUnsafeByte c = false)
    (hclq : ∀ c ∈ q, isUnsafeByte c = false)
    (hshape : p1x = [] ∨ p1x.head? = some '/')
    (hparams : splitParamsIf s p1x = (p, pr)) :
    urlparseM ((if s = [] then [] else s ++ [':']) ++
      '/' :: '/' :: (n ++ p1x) ++ (if q = [] then [] else '?' :: q)) =
      ⟨s, n, p, pr, q, []⟩ := by
  have hQc : ∀ c ∈ (if q = [] then [] else '?' :: q), isUnsafeByte c = false := by
    intro c hc
    by_cases hq : q = []
    · rw [if_pos hq] at hc
      exact absurd hc (List.not_mem_nil _)
    · rw [if_neg hq] at hc
      rcases List.mem_cons.mp hc with rfl | h1
      · decide
      · exact hclq c h1
  have hrchars : ∀ c ∈ ('/' :: '/' :: (n ++ p1x) ++
      (if q = [] then [] else '?' :: q) : Str), isUnsafeByte c = false := by
    intro c hc
    simp only [List.cons_append, List.mem_cons, List.mem_append] at hc
    rcases hc with rfl | rfl | (h1 | h1) | h1
    · decide
    · decide
    · exact hcln c h1
    · exact hclp c h1
    · exact hQc c h1
  have hbr2 : ('/' :: '/' :: (n ++ p1x) ++
      (if q = [] then [] else '?' :: q) : Str).take 2 = ['/', '/'] := rfl
  have hdr2 : ('/' :: '/' :: (n ++ p1x) ++
      (if q = [] then [] else '?' :: q) : Str).drop 2 =
      n ++ (p1x ++ (if q = [] then [] else '?' :: q)) :=
    List.append_assoc n p1x (if q = [] then [] else '?' :: q)
  rcases hs with rfl | hgood
  · rw [if_pos rfl, List.nil_append]
    have hvchars : ∀ c ∈ ('/' :: '/' :: (n ++ p1x) ++
        (if q = [] then [] else '?' :: q) : Str), isUnsafeByte c = false := hrchars
    have hvhead : ∀ c, ('/' :: '/' :: (n ++ p1x) ++
        (if q = [] then [] else '?' :: q) : Str).head? = some c →
        isC0OrSpace c = false := by
      intro c hc
      simp only [List.cons_append, List.head?] at hc
      cases hc
      decide
    have hpre := preprocess_eq_self _ hvchars hvhead
    have hss : splitScheme ('/' :: '/' :: (n ++ p1x) ++
        (if q = [] then [] else '?' :: q)) =
        ([], '/' :: '/' :: (n ++ p1x) ++ (if q = [] then [] else '?' :: q)) := by
      apply splitScheme_head_not_alpha
      intro c t hct
      simp only [List.cons_append] at hct
      have := (List.cons.inj hct).1
      subst this
      decide
    rw [urlparseM_eq_parseRest, hpre, hss]
    exact parseRest_eval_auth [] n p1x p pr q _ hbr2 hdr2 hn hshape hcp hcq hparams
  · have hsne : s ≠ [] := hgood.1
    rw [if_neg hsne]
    have hveq : (s ++ [':']) ++ '/' :: '/' :: (n ++ p1x) ++
        (if q = [] then [] else '?' :: q) =
        s ++ ':' :: ('/' :: '/' :: (n ++ p1x) ++
          (if q = [] then [] else '?' :: q)) := by
      simp
    rw [hveq]
    have hvchars : ∀ c ∈ s ++ ':' :: ('/' :: '/' :: (n ++ p1x) ++
        (if q = [] then [] else '?' :: q)), isUnsafeByte c = false := by
      intro c hc
      rcases List.mem_append.mp hc with h1 | h1
      · exact isSchemeChar_not_unsafe c (hgood.2.1 c h1)
      · rcases List.mem_cons.mp h1 with rfl | h2
        · decide
        · exact hrchars c h2
    have hvhead : ∀ c, (s ++ ':' :: ('/' :: '/' :: (n ++ p1x) ++
        (if q = [] then [] else '?' :: q))).head? = some c →
        isC0OrSpace c = false := by
      intro c hc
      obtain ⟨c0, rest, hcons, halpha⟩ := hgood.2.2.1
      subst hcons
      simp only [List.cons_append, List.head?] at hc
      cases hc
      exact alpha_not_c0 _ halpha
    have hpre := preprocess_eq_self _ hvchars hvhead
    have hss := splitScheme_good s ('/' :: '/' :: (n ++ p1x) ++
      (if q = [] then [] else '?' :: q)) hgood
    rw [urlparseM_eq_parseRest, hpre, hss]
    exact parseRest_eval_auth s n p1x p pr q _ hbr2 hdr2 hn hshape hcp hcq hparams

/-- Reparsing a URL serialized in bare form recovers its components with
an empty netloc. -/
theorem parse_bare (s w p pr q : Str)
    (hs : s = [] ∨ SchemeGood s)
    (hchars : '#' ∉ p ∧ '?' ∉ p ∧ '#' ∉ pr ∧ '?' ∉ pr ∧ '#' ∉ q)
    (hclp : ∀ c ∈ p, isUnsafeByte c = false)
    (hclpr : ∀ c ∈ pr, isUnsafeByte c = false)
    (hclq : ∀ c ∈ q, isUnsafeByte c = false)
    (hhead : s = [] → ∀ c, p.head? = some c → isC0OrSpace c = false)
    (htake : ¬ (recombineParams p pr).take 2 = ['/', '/'])
    (hnosch1 : s = [] → NoSchemeText w)
    (hnosch2 : s = [] → p <+: w ∨ p.head? = some '/')
    (hparams : splitParamsIf s (recombineParams p pr) = (p, pr)) :
    urlparseM ((if s = [] then [] else s ++ [':']) ++ recombineParams p pr ++
      (if q = [] then [] else '?' :: q)) = ⟨s, [], p, pr, q, []⟩ := by
  have hp1h : '#' ∉ recombineParams p pr := by
    simp only [recombineParams]
    split
    · intro hm
      rcases List.mem_append.mp hm with h1 | h1
      · exact hchars.1 h1
      · rcases List.mem_cons.mp h1 with h2 | h2
        · exact absurd h2 (by decide)
        · exact hchars.2.2.1 h2
    · exact hchars.1
  have hp1q : '?' ∉ recombineParams p pr := by
    simp only [recombineParams]
    split
    · intro hm
      rcases List.mem_append.mp hm with h1 | h1
      · exact hchars.2.1 h1
      · rcases List.mem_cons.mp h1 with h2 | h2
        · exact absurd h2 (by decide)
        · exact hchars.2.2.2.1 h2
    · exact hchars.2.1
  have hclp1 : ∀ c ∈ recombineParams p pr, isUnsafeByte c = false := by
    simp only [recombineParams]
    split
    · intro c hc
      rcases List.mem_append.mp hc with h1 | h1
      · exact hclp c h1
      · rcases List.mem_cons.mp h1 with rfl | h2
        · decide
        · exact hclpr c h2
    · exact hclp
  have hQc : ∀ c ∈ (if q = [] then [] else '?' :: q), isUnsafeByte c = false := by
    intro c hc
    by_cases hq : q = []
    · rw [if_pos hq] at hc
      exact absurd hc (List.not_mem_nil _)
    · rw [if_neg hq] at hc
      rcases List.mem_cons.mp hc with rfl | h1
      · decide
      · exact hclq c h1
  have hp1head : s = [] → ∀ c, (recombineParams p pr).head? = some c →
      isC0OrSpace c = false := by
    intro hse c hc
    simp only [recombineParams] at hc
    split at hc
    · cases p with
      | nil =>
        simp only [List.nil_append, List.head?] at hc
        cases hc
        decide
      | cons e t =>
        simp only [List.cons_append, List.head?] at hc
        cases hc
        exact hhead hse _ rfl
    · exact hhead hse c hc
  have hbr2 : ¬ (recombineParams p pr ++
      (if q = [] then [] else '?' :: q) : Str).take 2 = ['/', '/'] := by
    apply take2_append_ne _ _ htake
    by_cases hq : q = []
    · rw [if_pos hq]
      exact Or.inl rfl
    · rw [if_neg hq]
      exact Or.inr rfl
  rcases hs with rfl | hgood
  · rw [if_pos rfl, List.nil_append]
    have hvchars : ∀ c ∈ recombineParams p pr ++
        (if q = [] then [] else '?' :: q), isUnsafeByte c = false := by
      intro c hc
      rcases List.mem_append.mp hc with h1 | h1
      · exact hclp1 c h1
      · exact hQc c h1
    have hvhead : ∀ c, (recombineParams p pr ++
        (if q = [] then [] else '?' :: q)).head? = some c →
        isC0OrSpace c = false := by
      intro c hc
      cases hp1c : recombineParams p pr with
      | nil =>
        rw [hp1c, List.nil_append] at hc
        by_cases hq : q = []
        · rw [if_pos hq] at hc
          cases hc
        · rw [if_neg hq] at hc
          simp only [List.head?] at hc
          cases hc
          decide
      | cons d t =>
        rw [hp1c] at hc
        simp only [List.cons_append, List.head?] at hc
        cases hc
        exact hp1head rfl _ (by rw [hp1c]; rfl)
    have hpre := preprocess_eq_self _ hvchars hvhead
    have hss : splitScheme (recombineParams p pr ++
        (if q = [] then [] else '?' :: q)) =
        ([], recombineParams p pr ++ (if q = [] then [] else '?' :: q)) := by
      rcases hnosch2 rfl with hpw | hph
      · obtain ⟨z, hzeq, hz⟩ : ∃ z, recombineParams p pr ++
            (if q = [] then [] else '?' :: q) = p ++ z ∧
            (z = [] ∨ z.head? = some ';' ∨ z.head? = some '?') := by
          simp only [recombineParams]
          split
          · exact ⟨';' :: (pr ++ (if q = [] then [] else '?' :: q)),
              by simp, Or.inr (Or.inl rfl)⟩
          · by_cases hq : q = []
            · exact ⟨[], by rw [if_pos hq], Or.inl rfl⟩
            · exact ⟨'?' :: q, by rw [if_neg hq], Or.inr (Or.inr rfl)⟩
        rw [hzeq]
        exact splitScheme_prefix_guard p z w hpw (hnosch1 rfl) hz
      · apply splitScheme_head_not_alpha
        intro c t hct
        cases hp : p with
        | nil =>
          rw [hp] at hph
          cases hph
        | cons e t2 =>
          rw [hp] at hph
          simp only [List.head?] at hph
          have he : e = '/' := Option.some.inj hph
          subst he
          rw [hp, recombine_cons_slash] at hct
          simp only [List.cons_append] at hct
          have := (List.cons.inj hct).1
          subst this
          decide
    rw [urlparseM_eq_parseRest, hpre, hss]
    exact parseRest_eval_bare [] (recombineParams p pr) p pr q _ hbr2 rfl
      ⟨hp1h, hp1q⟩ hchars.2.2.2.2 hparams
  · have hsne : s ≠ [] := hgood.1
    rw [if_neg hsne]
    have hveq : (s ++ [':']) ++ recombineParams p pr ++
        (if q = [] then [] else '?' :: q) =
        s ++ ':' :: (recombineParams p pr ++
          (if q = [] then [] else '?' :: q)) := by
      simp
    rw [hveq]
    have hvchars : ∀ c ∈ s ++ ':' :: (recombineParams p pr ++
        (if q = [] then [] else '?' :: q)), isUnsafeByte c = false := by
      intro c hc
      rcases List.mem_append.mp hc with h1 | h1
      · exact isSchemeChar_not_unsafe c (hgood.2.1 c h1)
      · rcases List.mem_cons.mp h1 with rfl | h2
        · decide
        · rcases List.mem_append.mp h2 with h3 | h3
          · exact hclp1 c h3
          · exact hQc c h3
    have hvhead : ∀ c, (s ++ ':' :: (recombineParams p pr ++
        (if q = [] then [] else '?' :: q))).head? = some c →
        isC0OrSpace c = false := by
      intro c hc
      obtain ⟨c0, rest, hcons, halpha⟩ := hgood.2.2.1
      subst hcons
      simp only [List.cons_append, List.head?] at hc
      cases hc
      exact alpha_not_c0 _ halpha
    have hpre := preprocess_eq_self _ hvchars hvhead
    have hss := splitScheme_good s (recombineParams p pr ++
      (if q = [] then [] else '?' :: q)) hgood
    rw [urlparseM_eq_parseRest, hpre, hss]
    exact parseRest_eval_bare s (recombineParams p pr) p pr q _ hbr2 rfl
      ⟨hp1h, hp1q⟩ hchars.2.2.2.2 hparams

/-- Characters of a recombined path come from the path, the params or the
separating semicolon. -/
theorem mem_recombine (c : Char) (p pr : Str) (h : c ∈ recombineParams p pr) :
    c ∈ p ∨ c = ';' ∨ c ∈ pr := by
  simp only [recombineParams] at h
  split at h
  · rcases List.mem_append.mp h with h1 | h1
    · exact Or.inl h1
    · rcases List.mem_cons.mp h1 with h2 | h2
      · exact Or.inr (Or.inl h2)
      · exact Or.inr (Or.inr h2)
  · exact Or.inl h

/-- A character absent from path and params and distinct from the
semicolon is absent from the recombined path. -/
theorem recombine_not_mem (c : Char) (p pr : Str) (hp : c ∉ p) (hpr : c ∉ pr)
    (hc : ¬ c = ';') : c ∉ recombineParams p pr := by
  intro hm
  rcases mem_recombine c p pr hm with h1 | h1 | h1
  · exact hp h1
  · exact hc h1
  · exact hpr h1

/-- A singleton take-1 determines the head. -/
theorem take1_head (l : Str) (c : Char) (h : l.take 1 = [c]) :
    l.head? = some c := by
  cases l with
  | nil => simp at h
  | cons d t =>
    have h2 : ([d] : Str) = [c] := h
    cases h2
    rfl

/-- normalize_url reduces to urlunsplit of the recombined components once
the parse of its argument is known. -/
theorem normalize_of_parse (x s n p pr q fr : Str)
    (hx : urlparseM x = ⟨s, n, p, pr, q, fr⟩) :
    normalize_url x = urlunsplitM s n (recombineParams p pr) q [] := by
  simp only [normalize_url, hx]
  rfl

/-- C8 counterexample: normalize_url is not idempotent.  On
"http://////x" the parse yields an empty netloc and a path beginning
with two slashes, and urlunsplit drops one of them, so a second
normalization differs from the first. -/
theorem normalize_url_not_idempotent :
    normalize_url (normalize_url (lit "http://////x")) ≠
      normalize_url (lit "http://////x") := by decide

/-- C8 (amended): normalize_url is idempotent on every URL whose parse
has a non-empty netloc or whose path does not begin with two slashes;
the unconditional statement fails (see normalize_url_not_idempotent). -/
theorem normalize_url_conditional_idempotent (u : Str)
    (h : (urlparseM u).netloc ≠ [] ∨
      ¬ (urlparseM u).path.take 2 = ['/', '/']) :
    normalize_url (normalize_url u) = normalize_url u := by
  obtain ⟨F1, F2, F3, F4, F5, F6, F7⟩ := urlparseM_facts u
  rcases hP : urlparseM u with ⟨s, n, p, pr, q, fr⟩
  rw [hP] at F1 F2 F3 F4 F5 F6 F7 h
  dsimp only at F1 F2 F3 F4 F5 F6 F7 h
  have hv := normalize_of_parse u s n p pr q fr hP
  rw [hv]
  have hclp : ∀ c ∈ p, isUnsafeByte c = false :=
    fun c hc => preprocess_no_unsafe u c (F5.2.1 c hc)
  have hclpr : ∀ c ∈ pr, isUnsafeByte c = false :=
    fun c hc => preprocess_no_unsafe u c (F5.2.2.1 c hc)
  have hclq : ∀ c ∈ q, isUnsafeByte c = false :=
    fun c hc => preprocess_no_unsafe u c (F5.2.2.2 c hc)
  have hcln : ∀ c ∈ n, isUnsafeByte c = false :=
    fun c hc => preprocess_no_unsafe u c (F5.1 c hc)
  have hclp1 : ∀ c ∈ recombineParams p pr, isUnsafeByte c = false := by
    intro c hc
    rcases mem_recombine c p pr hc with h1 | h1 | h1
    · exact hclp c h1
    · subst h1
      decide
    · exact hclpr c h1
  have hp1h : '#' ∉ recombineParams p pr :=
    recombine_not_mem '#' p pr F4.1 F4.2.2.1 (by decide)
  have hp1q : '?' ∉ recombineParams p pr :=
    recombine_not_mem '?' p pr F4.2.1 F4.2.2.2.1 (by decide)
  by_cases hcond : n ≠ [] ∨ (s ≠ [] ∧ usesNetloc s = true ∧
      ¬ (recombineParams p pr).take 2 = ['/', '/'])
  · by_cases hins : recombineParams p pr = [] ∨
        (recombineParams p pr).take 1 = ['/']
    · rw [unsplit_form_auth s n (recombineParams p pr) q hcond hins]
      have hshape : recombineParams p pr = [] ∨
          (recombineParams p pr).head? = some '/' := by
        rcases hins with h1 | h1
        · exact Or.inl h1
        · exact Or.inr (take1_head _ _ h1)
      have hparse := parse_authority s n (recombineParams p pr) p pr q F1 F3
        ⟨hp1h, hp1q⟩ F4.2.2.2.2 hcln hclp1 hclq hshape F7
      rw [normalize_of_parse _ s n p pr q [] hparse,
        unsplit_form_auth s n (recombineParams p pr) q hcond hins]
    · push_neg at hins
      rw [unsplit_form_auth_ins s n (recombineParams p pr) q hcond hins]
      have hparams2 : splitParamsIf s ('/' :: recombineParams p pr) =
          ('/' :: p, pr) := by
        rw [splitParamsIf_cons_slash, F7]
      have hparse := parse_authority s n ('/' :: recombineParams p pr)
        ('/' :: p) pr q F1 F3
        ⟨by
          intro hm
          rcases List.mem_cons.mp hm with h1 | h1
          · exact absurd h1 (by decide)
          · exact hp1h h1,
         by
          intro hm
          rcases List.mem_cons.mp hm with h1 | h1
          · exact absurd h1 (by decide)
          · exact hp1q h1⟩
        F4.2.2.2.2 hcln
        (by
          intro c hc
          rcases List.mem_cons.mp hc with rfl | h1
          · decide
          · exact hclp1 c h1)
        hclq (Or.inr rfl) hparams2
      have hcond2 : n ≠ [] ∨ (s ≠ [] ∧ usesNetloc s = true ∧
          ¬ ('/' :: recombineParams p pr).take 2 = ['/', '/']) := by
        rcases hcond with h1 | ⟨h1, h2, h3⟩
        · exact Or.inl h1
        · refine Or.inr ⟨h1, h2, ?_⟩
          intro hcc
          have hcc2 : '/' :: (recombineParams p pr).take 1 = ['/', '/'] := hcc
          exact hins.2 (List.cons.inj hcc2).2
      rw [normalize_of_parse _ s n ('/' :: p) pr q [] hparse,
        recombine_cons_slash,
        unsplit_form_auth s n ('/' :: recombineParams p pr) q hcond2
          (Or.inr rfl)]
  · have hn0 : n = [] := by
      by_contra hne
      exact hcond (Or.inl hne)
    subst hn0
    have hptake : ¬ p.take 2 = ['/', '/'] := by
      rcases h with h1 | h1
      · exact absurd rfl h1
      · exact h1
    have htake := recombine_take2_ne_of_path p pr hptake
    rw [unsplit_form_bare s [] (recombineParams p pr) q hcond]
    have hhead : s = [] → ∀ c, p.head? = some c → isC0OrSpace c = false := by
      intro hse c hc
      rcases F6 with ⟨h1, _⟩ | h1 | ⟨_, _, h3⟩
      · subst h1
        cases hc
      · rw [h1] at hc
        cases hc
        decide
      · rcases prefix_head p (preprocess u) (h3 hse) with h4 | h4
        · subst h4
          cases hc
        · rw [h4] at hc
          exact preprocess_head_not_c0 u c hc
    have hnosch2 : s = [] → p <+: preprocess u ∨ p.head? = some '/' := by
      intro hse
      rcases F6 with ⟨h1, _⟩ | h1 | ⟨_, _, h3⟩
      · subst h1
        exact Or.inl List.nil_prefix
      · exact Or.inr h1
      · exact Or.inl (h3 hse)
    have hparse := parse_bare s (preprocess u) p pr q F1 F4 hclp hclpr hclq
      hhead htake F2 hnosch2 F7
    rw [normalize_of_parse _ s [] p pr q [] hparse,
      unsplit_form_bare s [] (recombineParams p pr) q hcond]

/-- C8 witness: a concrete URL with a non-empty netloc on which the
amended idempotence theorem applies. -/
theorem normalize_url_conditional_idempotent_witness :
    ((urlparseM (lit "http://example.com/blog/post#frag")).netloc ≠ [] ∨
      ¬ (urlparseM (lit "http://example.com/blog/post#frag")).path.take 2 =
        ['/', '/']) ∧
    normalize_url (normalize_url (lit "http://example.com/blog/post#frag")) =
      normalize_url (lit "http://example.com/blog/post#frag") :=
  ⟨Or.inl (by decide),
   normalize_url_conditional_idempotent _ (Or.inl (by decide))⟩

end BlogScraper